import Mathlib

/-!
Verification of the Sudoku constraint-satisfaction engine in
`sudokuSolver.py` (classes `Grid`, `FirstAvailable`, `MRV`, `AC3`,
`Backtracking`).  Each Python function is shallowly embedded as an
executable Lean definition; cell domains are lists of characters
(Python strings), the board is a list of rows of cells, and the
propagation queue is a deduplicating list (Python `set`, popped from
the front).
-/

set_option maxRecDepth 100000
set_option synthInstance.maxSize 2048

namespace Sudoku

/-- Domains are Python strings, modelled as lists of characters. -/
abbrev Cell := List Char

/-- The board `Grid._cells`: a list of rows of cells. -/
abbrev Grid := List (List Cell)

/-- The string `Grid._complete_domain`. -/
def completeDomain : Cell := ['1', '2', '3', '4', '5', '6', '7', '8', '9']

/-- The per-character conversion in `Grid.read_file`:
`self._complete_domain if p == '.' else p`. -/
def conv (c : Char) : Cell := if c = '.' then completeDomain else [c]

/-- The loop of `Grid.read_file`: state `i` (characters consumed), `row`
(row under construction), `cells` (completed rows). -/
def readAux : List Char → Nat → List Cell → Grid → Grid
  | [], _, _, cells => cells
  | p :: ps, i, row, cells =>
    if (i + 1) % 9 = 0 then readAux ps (i + 1) [] (cells ++ [row ++ [conv p]])
    else readAux ps (i + 1) (row ++ [conv p]) cells

/-- `Grid.read_file` on a fresh `Grid` (empty `_cells`, width 9). -/
def readFile (s : String) : Grid := readAux s.data 0 [] []

/-- Grouping a flat list of cells into rows of nine, dropping a trailing
partial row; used to characterise `readFile`. -/
def groups9 (xs : List Cell) : Grid :=
  if _h : 9 ≤ xs.length then xs.take 9 :: groups9 (xs.drop 9) else []
termination_by xs.length
decreasing_by
  simp only [List.length_drop]
  omega

/-- Reading `grid.get_cells()[i][j]` (out-of-range reads give `[]`;
the Python flow only indexes inside the 9 by 9 board). -/
def cellsGet (g : Grid) (i j : Nat) : Cell := (g.getD i []).getD j []

/-- Writing `grid.get_cells()[i][j] = v`. -/
def cellsSet (g : Grid) (i j : Nat) (v : Cell) : Grid :=
  g.set i ((g.getD i []).set j v)

/-- Position of index `k` in the row-major scan of the 9 by 9 board. -/
def posOf (k : Nat) : Nat × Nat := (k / 9, k % 9)

/-- All 81 positions in row-major order, matching the nested
`for i ... for j ...` loops. -/
def allPos : List (Nat × Nat) := (List.range 81).map posOf

/-- `Grid.is_solved`: every cell's domain has exactly one member. -/
def isSolved (g : Grid) : Bool :=
  allPos.all fun p => (cellsGet g p.1 p.2).length == 1

/-- `FirstAvailable.select_variable`: first cell in row-major order with
more than one candidate, `none` when there is no such cell (Python
falls through and returns `None`). -/
def faSelect (g : Grid) : Option (Nat × Nat) :=
  allPos.find? fun p => decide (1 < (cellsGet g p.1 p.2).length)

/-- One step of the `MRV.select_variable` loop: update `(var, small_domain)`
when `d_len <= small_domain and d_len != 1`. -/
def mrvStep (g : Grid) (st : (Nat × Nat) × Nat) (p : Nat × Nat) : (Nat × Nat) × Nat :=
  let d := (cellsGet g p.1 p.2).length
  if d ≤ st.2 ∧ d ≠ 1 then (p, d) else st

/-- `MRV.select_variable`: fold over all cells starting from
`var = (0, 0)`, `small_domain = 9`; always returns a pair. -/
def mrv (g : Grid) : Nat × Nat := (allPos.foldl (mrvStep g) ((0, 0), 9)).1

/-- `FirstAvailable` as the selector passed to `Backtracking.search`. -/
def selFA : Grid → Option (Nat × Nat) := faSelect

/-- `MRV` as the selector passed to `Backtracking.search` (Python MRV
always returns a tuple, never `None`). -/
def selMRV (g : Grid) : Option (Nat × Nat) := some (mrv g)

/-- Bool test that the first list is a prefix of the second. -/
def startsWithL : List Char → List Char → Bool
  | [], _ => true
  | _ :: _, [] => false
  | a :: as, b :: bs => a == b && startsWithL as bs

/-- Left-to-right, non-overlapping removal of the occurrences of the
nonempty pattern `p :: ps`, with fuel (one unit per character of the
scanned string, so `s.length` is always enough). -/
def removeOccF (p : Char) (ps : List Char) : Nat → List Char → List Char
  | _, [] => []
  | 0, s => s
  | fuel + 1, c :: cs =>
    if startsWithL (p :: ps) (c :: cs) then removeOccF p ps fuel (cs.drop ps.length)
    else c :: removeOccF p ps fuel cs

/-- Removal of the occurrences of the nonempty pattern `p :: ps`, the
semantics of Python `cell.replace(old, '')` for a nonempty `old`. -/
def removeOcc1 (p : Char) (ps : List Char) (s : List Char) : List Char :=
  removeOccF p ps s.length s

/-- Python `s.replace(pat, '')`: for an empty pattern the string is
unchanged (empty replacement), otherwise remove occurrences. -/
def replaceSub (s pat : Cell) : Cell :=
  match pat with
  | [] => s
  | p :: ps => removeOcc1 p ps s

/-- Row `r` of the board as a list of positions. -/
def rowUnit (r : Nat) : List (Nat × Nat) := (List.range 9).map fun j => (r, j)

/-- Column `c` of the board as a list of positions. -/
def colUnit (c : Nat) : List (Nat × Nat) := (List.range 9).map fun i => (i, c)

/-- The 3 by 3 box with corner `(3 * br, 3 * bc)`, rows first. -/
def boxUnit (br bc : Nat) : List (Nat × Nat) :=
  (List.range 9).map fun k => (3 * br + k / 3, 3 * bc + k % 3)

/-- The 27 constraint groups: 9 rows, 9 columns, 9 boxes. -/
def units : List (List (Nat × Nat)) :=
  ((List.range 9).map rowUnit) ++ ((List.range 9).map colUnit) ++
    ((List.range 9).map fun b => boxUnit (b / 3) (b % 3))

/-- The peers visited by `AC3.remove_domain_row`: `j` from 0 to 8
skipping the column itself. -/
def rowPeers (r c : Nat) : List (Nat × Nat) :=
  ((List.range 9).filter fun j => decide (j ≠ c)).map fun j => (r, j)

/-- The peers visited by `AC3.remove_domain_column`. -/
def colPeers (r c : Nat) : List (Nat × Nat) :=
  ((List.range 9).filter fun i => decide (i ≠ r)).map fun i => (i, c)

/-- The peers visited by `AC3.remove_domain_unit`: box of `(r, c)`,
rows first, skipping `(r, c)` itself. -/
def boxPeers (r c : Nat) : List (Nat × Nat) :=
  (boxUnit (r / 3) (c / 3)).filter fun p => decide (p ≠ (r, c))

/-- The common body of the three `AC3.remove_domain_*` loops: for each
peer, compute `new_domain = cell.replace(v, '')`; on an empty result
signal the contradiction immediately; record peers whose domain newly
became a singleton; store the new domain. Returns the mutated grid, the
`variables_assigned` list and the failure flag. -/
def sweep (v : Cell) : List (Nat × Nat) → Grid → Grid × List (Nat × Nat) × Bool
  | [], g => (g, [], false)
  | (a, b) :: ps, g =>
    let cell := cellsGet g a b
    let nd := replaceSub cell v
    if nd.length = 0 then (g, [], true)
    else
      let r := sweep v ps (cellsSet g a b nd)
      (r.1, (if nd.length = 1 ∧ 1 < cell.length then [(a, b)] else []) ++ r.2.1, r.2.2)

/-- `AC3.remove_domain_row` (the value removed is the domain of
`(row, column)`, unchanged during the pass). -/
def removeDomainRow (g : Grid) (row col : Nat) : Grid × List (Nat × Nat) × Bool :=
  sweep (cellsGet g row col) (rowPeers row col) g

/-- `AC3.remove_domain_column`. -/
def removeDomainColumn (g : Grid) (row col : Nat) : Grid × List (Nat × Nat) × Bool :=
  sweep (cellsGet g row col) (colPeers row col) g

/-- `AC3.remove_domain_unit`. -/
def removeDomainUnit (g : Grid) (row col : Nat) : Grid × List (Nat × Nat) × Bool :=
  sweep (cellsGet g row col) (boxPeers row col) g

/-- `Q.add(v)` for each new variable: a Python set add, modelled as
append-if-absent. -/
def addVars (Q : List (Nat × Nat)) (vs : List (Nat × Nat)) : List (Nat × Nat) :=
  vs.foldl (fun q v => if v ∈ q then q else q ++ [v]) Q

/-- Sum of all domain sizes; together with the queue length it bounds
the number of iterations of the `AC3.consistency` loop. -/
def totalSize (g : Grid) : Nat := (g.map fun row => (row.map List.length).sum).sum

/-- The `while Q` loop of `AC3.consistency`, with explicit fuel
(`none` = fuel exhausted; the fuel `totalSize g + Q.length + 1` is
proved sufficient below). Pops the head, runs the three removal passes
on the successively mutated grid, returns `true` on any failure flag,
otherwise adds the newly assigned variables to the queue and repeats;
returns `false` when the queue empties. -/
def consistencyF : Nat → Grid → List (Nat × Nat) → Option (Grid × Bool)
  | 0, _, _ => none
  | _ + 1, g, [] => some (g, false)
  | fuel + 1, g, (r, c) :: Q =>
    let p1 := removeDomainRow g r c
    let p2 := removeDomainColumn p1.1 r c
    let p3 := removeDomainUnit p2.1 r c
    if p1.2.2 || p2.2.2 || p3.2.2 then some (p3.1, true)
    else consistencyF fuel p3.1 (addVars Q (p1.2.1 ++ p2.2.1 ++ p3.2.1))

/-- `AC3.consistency` run with sufficient fuel: returns the mutated grid
and the contradiction flag. -/
def consistency (g : Grid) (Q : List (Nat × Nat)) : Grid × Bool :=
  (consistencyF (totalSize g + Q.length + 1) g Q).getD (g, true)

/-- The queue built by `AC3.pre_process_consistency`: every cell whose
domain is already a singleton, in row-major order. -/
def fixedCells (g : Grid) : List (Nat × Nat) :=
  allPos.filter fun p => (cellsGet g p.1 p.2).length == 1

/-- `AC3.pre_process_consistency`: seed the queue with all fixed cells
and run `consistency`. The Python method discards the returned flag;
we keep it so that the discard is visible to the theorems. -/
def preProcess (g : Grid) : Grid × Bool := consistency g (fixedCells g)

/-- `Backtracking.consistent(grid, d_val, row, col)`: `d` may not already
appear as a fixed singleton anywhere in the row, column or box
(the scans include `(row, col)` itself, as in the source). -/
def consistentCheck (g : Grid) (d : Char) (row col : Nat) : Bool :=
  let hit := fun (a b : Nat) =>
    (cellsGet g a b).length == 1 && cellsGet g a b == [d]
  !(((List.range 9).any fun i => hit row i || hit i col) ||
    ((List.range 9).any fun k => hit (row / 3 * 3 + k / 3) (col / 3 * 3 + k % 3)))

/-- Result of `Backtracking.search`: a solved grid, the failure value
`False`, the unhandled `TypeError` from unpacking `None`, or fuel
exhaustion (never reached with sufficient fuel). -/
inductive SResult where
  | found : Grid → SResult
  | failed : SResult
  | crashed : SResult
  | fuelOut : SResult
deriving DecidableEq

/-- The `for d in grid.get_cells()[i][j]` loop of `Backtracking.search`:
try each candidate in order; on a consistent candidate clone the board,
assign, propagate from `{(i, j)}`; recurse (`recur`) when no
contradiction; propagate any non-`failed` recursive outcome upward. -/
def digitLoop (recur : Grid → SResult) (g : Grid) (i j : Nat) : List Char → SResult
  | [] => SResult.failed
  | d :: ds =>
    if consistentCheck g d i j then
      let res := consistency (cellsSet g i j [d]) [(i, j)]
      if res.2 then digitLoop recur g i j ds
      else
        match recur res.1 with
        | SResult.failed => digitLoop recur g i j ds
        | r => r
    else digitLoop recur g i j ds

/-- `Backtracking.search` with fuel: solved boards are returned at once;
otherwise the selector chooses a cell (`None` would crash the tuple
unpacking) and the candidate loop runs. -/
def searchF : Nat → (Grid → Option (Nat × Nat)) → Grid → SResult
  | 0, _, _ => SResult.fuelOut
  | fuel + 1, sel, g =>
    if isSolved g then SResult.found g
    else
      match sel g with
      | none => SResult.crashed
      | some (i, j) => digitLoop (searchF fuel sel) g i j (cellsGet g i j)

/-- Serialization of one cell in `Grid.print`: the digit when the domain
is a singleton, `'.'` otherwise. -/
def serializeCell (v : Cell) : Char := if v.length = 1 then v.headD '.' else '.'

/-- Serialization of the whole board back to 81 characters, row-major,
following `Grid.print`. -/
def serializeGrid (g : Grid) : List Char :=
  allPos.map fun p => serializeCell (cellsGet g p.1 p.2)

/-- Domain size of the cell at row-major index `k`. -/
def sz (g : Grid) (k : Nat) : Nat := (cellsGet g (k / 9) (k % 9)).length

/-- No two distinct positions of a common unit hold the same singleton
domain, except possibly pairs with a member in the queue `Q`. -/
def R (g : Grid) (Q : List (Nat × Nat)) : Prop :=
  ∀ u ∈ units, ∀ p ∈ u, ∀ q ∈ u, p ≠ q →
    (cellsGet g p.1 p.2).length = 1 →
    cellsGet g p.1 p.2 = cellsGet g q.1 q.2 → p ∈ Q ∨ q ∈ Q

/-- No two distinct positions of a common unit hold the same singleton
domain. -/
def ok (g : Grid) : Prop := R g []

/-- Every cell of the 9 by 9 board draws its characters from
`completeDomain`. -/
def WfChars (g : Grid) : Prop :=
  ∀ i < 9, ∀ j < 9, ∀ c ∈ cellsGet g i j, c ∈ completeDomain

/-- Every cell of the 9 by 9 board has a nonempty domain. -/
def Nonempty9 (g : Grid) : Prop := ∀ i < 9, ∀ j < 9, cellsGet g i j ≠ []

/-- A propagation fixed point: no cell is empty and no elimination is
applicable (every singleton's value is absent from all its peers). -/
def FixedPoint (g : Grid) : Prop :=
  Nonempty9 g ∧
    ∀ u ∈ units, ∀ p ∈ u, ∀ q ∈ u, p ≠ q →
      (cellsGet g p.1 p.2).length = 1 →
      ∀ c ∈ cellsGet g p.1 p.2, c ∉ cellsGet g q.1 q.2

/-- Every row, column and box contains each digit exactly once. -/
def validUnits (g : Grid) : Prop :=
  ∀ u ∈ units, ∀ d ∈ completeDomain,
    u.countP (fun p => cellsGet g p.1 p.2 == [d]) = 1

/-- Grids reachable through the program's own flow: parsed from an
81-character line, or obtained from a reachable grid by the initial
sweep, or by a search step (clone, assign a candidate of the selected
cell, propagate from that cell). -/
inductive Reachable : Grid → Prop where
  | ofRead (s : String) (h : s.length = 81) : Reachable (readFile s)
  | ofPre (g : Grid) : Reachable g → Reachable (preProcess g).1
  | ofStep (g : Grid) (i j : Nat) (d : Char) : Reachable g →
      d ∈ cellsGet g i j → Reachable (consistency (cellsSet g i j [d]) [(i, j)]).1

/-- A valid completed Sudoku board (classic example), as an input line. -/
def goodS : String :=
  "534678912672195348198342567859761423426853791713924856961537284287419635345286179"

/-- The parsed valid completed board. -/
def goodGrid : Grid := readFile goodS

/-- The same board with cell (0,1) changed to '5': two identical digits
pre-assigned in row 0, an inconsistent fully assigned input. -/
def badS : String :=
  "554678912672195348198342567859761423426853791713924856961537284287419635345286179"

/-- The parsed inconsistent fully assigned board. -/
def badGrid : Grid := readFile badS

/-- A partial inconsistent input: two 1s in row 0, all else unknown. -/
def dup2S : String := "11" ++ String.mk (List.replicate 79 '.')

/-- An 80-character input (too short). -/
def dots80 : String := String.mk (List.replicate 80 '.')

/-- An 82-character input (too long). -/
def dots82 : String := String.mk (List.replicate 82 '.')

/-- An 81-character input containing the letter x at the last cell. -/
def xS : String := String.mk (List.replicate 80 '.' ++ ['x'])

/-- An 81-character input whose first character is the digit 0. -/
def zeroS : String := "0" ++ String.mk (List.replicate 80 '.')

/-- The all-unknown 81-character input. -/
def dots81 : String := String.mk (List.replicate 81 '.')

/-- A board with two tied cells of minimal candidate-set size 2 at
(0,0) and (0,1). -/
def tieGrid : Grid := cellsSet (cellsSet goodGrid 0 0 ['1', '2']) 0 1 ['1', '2']

/-- A board whose unique smallest multi-candidate cell is (1,1). -/
def minG : Grid := cellsSet (cellsSet goodGrid 0 0 ['1', '2', '3']) 1 1 ['1', '2']

/-! ### List access plumbing -/

theorem getD_set_ne {α : Type} {i a : Nat} (h : i ≠ a) (l : List α) (x d : α) :
    (l.set i x).getD a d = l.getD a d := by
  simp [List.getD_eq_getElem?_getD, List.getElem?_set_ne h]

theorem getD_set_self {α : Type} (l : List α) (i : Nat) (x d : α) :
    (l.set i x).getD i d = if i < l.length then x else d := by
  by_cases h : i < l.length
  · simp [List.getD_eq_getElem?_getD, List.getElem?_set_self h, h]
  · have h2 : l.length ≤ i := le_of_not_lt h
    simp [List.getD_eq_getElem?_getD, List.set_eq_of_length_le h2,
      List.getElem?_len_le h2, h]

theorem getD_len_le {α : Type} {l : List α} {i : Nat} (h : l.length ≤ i) (d : α) :
    l.getD i d = d := by
  simp [List.getD_eq_getElem?_getD, List.getElem?_len_le h]

theorem set_getD_self {α : Type} (l : List α) (i : Nat) (d : α) :
    l.set i (l.getD i d) = l := by
  induction l generalizing i with
  | nil => simp
  | cons a as ih =>
    cases i with
    | zero => simp
    | succ n => simpa using ih n

theorem cellsGet_set_ne {g : Grid} {i j a b : Nat} (h : ¬(i = a ∧ j = b)) (v : Cell) :
    cellsGet (cellsSet g i j v) a b = cellsGet g a b := by
  unfold cellsGet cellsSet
  by_cases hi : i = a
  · subst hi
    have hj : j ≠ b := fun hb => h ⟨rfl, hb⟩
    rw [getD_set_self]
    by_cases hl : i < g.length
    · simp only [hl, if_true]
      rw [getD_set_ne hj]
    · simp only [hl, if_false]
      rw [getD_len_le (le_of_not_lt hl)]
  · rw [getD_set_ne hi]

theorem cellsGet_set_eq {g : Grid} {i j : Nat} (hi : i < g.length)
    (hj : j < (g.getD i []).length) (v : Cell) :
    cellsGet (cellsSet g i j v) i j = v := by
  unfold cellsGet cellsSet
  rw [getD_set_self, if_pos hi, getD_set_self, if_pos hj]

theorem cellsGet_ne_nil_range {g : Grid} {i j : Nat} (h : cellsGet g i j ≠ []) :
    i < g.length ∧ j < (g.getD i []).length := by
  unfold cellsGet at h
  constructor
  · by_contra hi
    rw [getD_len_le (le_of_not_lt hi)] at h
    simp at h
  · by_contra hj
    exact h (getD_len_le (le_of_not_lt hj) _)

theorem cellsSet_get_self (g : Grid) (i j : Nat) :
    cellsSet g i j (cellsGet g i j) = g := by
  unfold cellsGet cellsSet
  rw [set_getD_self, set_getD_self]

theorem cellsGet_set_cases (g : Grid) (i j : Nat) (v : Cell) (a b : Nat) :
    cellsGet (cellsSet g i j v) a b = cellsGet g a b ∨
      cellsGet (cellsSet g i j v) a b = v := by
  by_cases h : i = a ∧ j = b
  · obtain ⟨rfl, rfl⟩ := h
    by_cases hi : i < g.length
    · by_cases hj : j < (g.getD i []).length
      · exact Or.inr (cellsGet_set_eq hi hj v)
      · left
        unfold cellsSet
        rw [List.set_eq_of_length_le (le_of_not_lt hj), set_getD_self]
    · left
      unfold cellsSet
      rw [List.set_eq_of_length_le (le_of_not_lt hi)]
  · exact Or.inl (cellsGet_set_ne h v)

theorem sum_map_length_set (row : List Cell) :
    ∀ (j : Nat) (v : Cell), j < row.length →
      (((row.set j v).map List.length).sum + (row.getD j []).length =
        (row.map List.length).sum + v.length) := by
  induction row with
  | nil => intro j v hj; simp at hj
  | cons c cs ih =>
    intro j v hj
    cases j with
    | zero => simp [Nat.add_comm, Nat.add_left_comm]
    | succ n =>
      simp only [List.set_cons_succ, List.map_cons, List.sum_cons, List.getD_cons_succ]
      have := ih n v (by simpa using hj)
      omega

theorem totalSize_set (g : Grid) (i j : Nat) (v : Cell) (hi : i < g.length)
    (hj : j < (g.getD i []).length) :
    totalSize (cellsSet g i j v) + (cellsGet g i j).length = totalSize g + v.length := by
  unfold totalSize cellsSet cellsGet
  induction g generalizing i with
  | nil => simp at hi
  | cons row rows ih =>
    cases i with
    | zero =>
      simp only [List.set_cons_zero, List.map_cons, List.sum_cons, List.getD_cons_zero]
      have := sum_map_length_set row j v (by simpa using hj)
      omega
    | succ n =>
      simp only [List.set_cons_succ, List.map_cons, List.sum_cons, List.getD_cons_succ]
      have := ih n (by simpa using hi) (by simpa using hj)
      omega

/-! ### Characterisation of Grid.read_file -/

theorem readAux_eq (l : List Char) : ∀ (i : Nat) (row : List Cell) (cells : Grid),
    i % 9 = row.length → row.length < 9 →
    readAux l i row cells = cells ++ groups9 (row ++ l.map conv) := by
  induction l with
  | nil =>
    intro i row cells _ h2
    simp only [readAux, List.map_nil, List.append_nil]
    rw [groups9, dif_neg (by omega)]
    simp
  | cons p ps ih =>
    intro i row cells h1 h2
    unfold readAux
    by_cases hfull : row.length = 8
    · rw [if_pos (by omega)]
      rw [ih (i + 1) [] (cells ++ [row ++ [conv p]])
        (by simp only [List.length_nil]; omega) (by norm_num)]
      have hlen : 9 ≤ (row ++ conv p :: ps.map conv).length := by
        simp [hfull]
        omega
      have h9 : (row ++ [conv p]).length = 9 := by simp [hfull]
      have hcons : row ++ conv p :: ps.map conv = (row ++ [conv p]) ++ ps.map conv := by
        simp
      have hG : groups9 (row ++ conv p :: ps.map conv) =
          (row ++ [conv p]) :: groups9 (ps.map conv) := by
        rw [groups9, dif_pos hlen, hcons, List.take_left' h9, List.drop_left' h9]
      simp only [List.map_cons]
      rw [hG]
      simp
    · rw [if_neg (by omega)]
      rw [ih (i + 1) (row ++ [conv p]) cells
        (by simp only [List.length_append, List.length_cons, List.length_nil]; omega)
        (by simp only [List.length_append, List.length_cons, List.length_nil]; omega)]
      have hcons : (row ++ [conv p]) ++ ps.map conv = row ++ conv p :: ps.map conv := by
        simp
      simp only [List.map_cons]
      rw [hcons]

theorem readFile_eq (s : String) : readFile s = groups9 (s.data.map conv) := by
  unfold readFile
  rw [readAux_eq s.data 0 [] [] (by simp) (by norm_num)]
  simp

theorem groups9_length (xs : List Cell) : (groups9 xs).length = xs.length / 9 := by
  induction xs using groups9.induct with
  | case1 xs h ih =>
    rw [groups9, dif_pos h]
    simp only [List.length_cons, ih, List.length_drop]
    omega
  | case2 xs h =>
    rw [groups9, dif_neg h]
    simp only [List.length_nil]
    omega

theorem groups9_row_length (xs : List Cell) : ∀ row ∈ groups9 xs, row.length = 9 := by
  induction xs using groups9.induct with
  | case1 xs h ih =>
    rw [groups9, dif_pos h]
    intro row hrow
    rcases List.mem_cons.mp hrow with hr | hr
    · subst hr
      simp only [List.length_take]
      omega
    · exact ih row hr
  | case2 xs h =>
    rw [groups9, dif_neg h]
    intro row hrow
    simp at hrow

theorem groups9_get (i : Nat) : ∀ (xs : List Cell) (j : Nat), j < 9 →
    9 * i + 9 ≤ xs.length →
    cellsGet (groups9 xs) i j = xs.getD (9 * i + j) [] := by
  induction i with
  | zero =>
    intro xs j hj h9
    rw [groups9, dif_pos (by omega)]
    unfold cellsGet
    simp only [List.getD_cons_zero]
    rw [List.getD_eq_getElem?_getD, List.getD_eq_getElem?_getD, List.getElem?_take]
    simp [hj]
  | succ i ih =>
    intro xs j hj h9
    rw [groups9, dif_pos (by omega)]
    unfold cellsGet
    simp only [List.getD_cons_succ]
    have := ih (xs.drop 9) j hj (by simp only [List.length_drop]; omega)
    unfold cellsGet at this
    rw [this]
    rw [List.getD_eq_getElem?_getD, List.getD_eq_getElem?_getD, List.getElem?_drop]
    have hidx : 9 + (9 * i + j) = 9 * (i + 1) + j := by omega
    rw [hidx]

theorem string_length_data (s : String) : s.data.length = s.length := rfl

theorem readFile_get (s : String) (h81 : s.length = 81) {i j : Nat}
    (hi : i < 9) (hj : j < 9) :
    cellsGet (readFile s) i j = conv (s.data.getD (9 * i + j) ' ') := by
  have hd : s.data.length = 81 := by rw [string_length_data, h81]
  rw [readFile_eq, groups9_get i (s.data.map conv) j hj (by simp [hd]; omega)]
  have hk : 9 * i + j < s.data.length := by omega
  rw [List.getD_eq_getElem?_getD, List.getElem?_map, List.getElem?_eq_getElem hk,
    List.getD_eq_getElem?_getD, List.getElem?_eq_getElem hk]
  rfl

theorem readFile_length (s : String) (h81 : s.length = 81) : (readFile s).length = 9 := by
  rw [readFile_eq, groups9_length]
  simp [string_length_data s ▸ h81]

/-! ### Claim C1 -/

/-- C1 counterexample: the claim says an 80-character input raises
`FormatError` and leaves every Board unchanged; in fact `Grid.read_file`
returns normally, appending 8 complete rows to the Board. -/
theorem c1_counterexample : (readFile dots80).length = 8 ∧ readFile dots80 ≠ [] := by
  decide

/-- C1 amended: `Grid.read_file` performs no validation and cannot fail;
every input is accepted, its characters grouped into complete rows of 9
(partial trailing data dropped); an 82-character input yields 9 rows and
a letter x is stored verbatim as a cell domain. -/
theorem c1_amended :
    (∀ s : String, readFile s = groups9 (s.data.map conv)) ∧
    (readFile dots82).length = 9 ∧ cellsGet (readFile xS) 8 8 = ['x'] := by
  refine ⟨readFile_eq, ?_⟩
  decide

/-! ### Claim C6 -/

/-- C6 counterexample: the claim says a '0' input character yields the
full domain "123456789"; in fact only '.' does, and '0' is stored as
the singleton "0". -/
theorem c6_counterexample :
    cellsGet (readFile zeroS) 0 0 = ['0'] ∧ ['0'] ≠ completeDomain := by
  decide

/-- C6 amended: for every 81-character puzzle string, `Grid.read_file`
produces a 9 by 9 grid in which a cell holds the full domain
"123456789" exactly when its input character is '.', and holds the
singleton of the input character (be it a digit or anything else,
including '0') otherwise. -/
theorem c6_amended (s : String) (h81 : s.length = 81) :
    (readFile s).length = 9 ∧ (∀ row ∈ readFile s, row.length = 9) ∧
    ∀ i < 9, ∀ j < 9,
      cellsGet (readFile s) i j =
        if s.data.getD (9 * i + j) ' ' = '.' then completeDomain
        else [s.data.getD (9 * i + j) ' '] := by
  refine ⟨readFile_length s h81, ?_, ?_⟩
  · rw [readFile_eq]
    exact groups9_row_length _
  · intro i hi j hj
    rw [readFile_get s h81 hi hj]
    rfl

/-- C6 witness: the amended theorem applied to the valid 81-character
input `goodS`. -/
theorem c6_witness : goodS.length = 81 ∧ (readFile goodS).length = 9 :=
  ⟨by decide, (c6_amended goodS (by decide)).1⟩

/-! ### Claim C8 -/

/-- C8: parsing a valid 81-character string over digits and dots and
serializing every cell back (its digit when the domain is a singleton,
'.' otherwise, as in `Grid.print`) reproduces the original string. -/
theorem c8_roundtrip (s : String) (h81 : s.length = 81)
    (hchars : ∀ c ∈ s.data, c = '.' ∨ c ∈ completeDomain) :
    serializeGrid (readFile s) = s.data := by
  have hd : s.data.length = 81 := by rw [string_length_data, h81]
  have hdom : ∀ c ∈ completeDomain, ¬c = '.' := by decide
  apply List.ext_getElem
  · simp [serializeGrid, allPos, hd]
  · intro k h1 h2
    have hk : k < 81 := by
      simpa [serializeGrid, allPos] using h1
    have hpos : 9 * (k / 9) + k % 9 = k := by omega
    have hcell : cellsGet (readFile s) (k / 9) (k % 9) =
        conv (s.data.getD (9 * (k / 9) + k % 9) ' ') :=
      readFile_get s h81 (by omega) (by omega)
    rw [hpos] at hcell
    have hval : s.data.getD k ' ' = s.data[k] := by
      rw [List.getD_eq_getElem?_getD, List.getElem?_eq_getElem h2]
      rfl
    have hLHS : (serializeGrid (readFile s))[k] =
        serializeCell (cellsGet (readFile s) (k / 9) (k % 9)) := by
      simp only [serializeGrid, allPos, List.getElem_map, List.getElem_range]
      rfl
    rw [hLHS, hcell, hval]
    rcases hchars s.data[k] (List.getElem_mem h2) with hc | hc
    · rw [hc]
      decide
    · have hne : ¬s.data[k] = '.' := hdom _ hc
      simp [conv, hne, serializeCell]

/-- C8 witness: the round trip on the concrete valid input `goodS`. -/
theorem c8_witness :
    goodS.length = 81 ∧ (∀ c ∈ goodS.data, c = '.' ∨ c ∈ completeDomain) ∧
    serializeGrid (readFile goodS) = goodS.data :=
  ⟨by decide, by decide, c8_roundtrip goodS (by decide) (by decide)⟩

/-! ### Claim C4 -/

theorem mrvFold_inv (g : Grid) (hsz : ∀ k < 81, 1 ≤ sz g k ∧ sz g k ≤ 9) :
    ∀ n, n ≤ 81 → ∀ st, ((List.range n).map posOf).foldl (mrvStep g) ((0, 0), 9) = st →
      (st = ((0, 0), 9) ∧ ∀ k < n, sz g k = 1) ∨
      (∃ k0, k0 < n ∧ st.1 = posOf k0 ∧ st.2 = sz g k0 ∧ sz g k0 ≠ 1 ∧
        (∀ k < n, sz g k ≠ 1 → st.2 ≤ sz g k) ∧
        ∀ k, k0 < k → k < n → sz g k ≠ st.2) := by
  intro n
  induction n with
  | zero =>
    intro _ st hst
    left
    exact ⟨hst.symm, by omega⟩
  | succ n ih =>
    intro hn st hst
    rw [List.range_succ, List.map_append] at hst
    simp only [List.map_cons, List.map_nil, List.foldl_append, List.foldl_cons,
      List.foldl_nil] at hst
    set st' := ((List.range n).map posOf).foldl (mrvStep g) ((0, 0), 9) with hst'
    have hstep : st = if sz g n ≤ st'.2 ∧ sz g n ≠ 1 then (posOf n, sz g n) else st' := by
      rw [← hst]
      rfl
    have hn81 : n < 81 := by omega
    rcases ih (by omega) st' rfl with ⟨hinit, hall⟩ | ⟨k0, hk0, h1, h2, h3, h4, h5⟩
    · by_cases hone : sz g n = 1
      · left
        constructor
        · rw [hstep, if_neg (by simp [hone]), hinit]
        · intro k hk
          rcases Nat.lt_succ_iff_lt_or_eq.mp hk with h | h
          · exact hall k h
          · rw [h]; exact hone
      · have hup : st = (posOf n, sz g n) := by
          rw [hstep, if_pos ⟨by rw [hinit]; exact (hsz n hn81).2, hone⟩]
        right
        refine ⟨n, by omega, by rw [hup], by rw [hup], hone, ?_, ?_⟩
        · intro k hk hk1
          rcases Nat.lt_succ_iff_lt_or_eq.mp hk with h | h
          · exact absurd (hall k h) hk1
          · rw [hup, h]
        · intro k hklo hkhi
          omega
    · by_cases hone : sz g n = 1
      · have hnoup : st = st' := by
          rw [hstep, if_neg (by simp [hone])]
        right
        refine ⟨k0, by omega, by rw [hnoup]; exact h1, by rw [hnoup]; exact h2,
          h3, ?_, ?_⟩
        · intro k hk hk1
          rcases Nat.lt_succ_iff_lt_or_eq.mp hk with h | h
          · rw [hnoup]; exact h4 k h hk1
          · exact absurd (h ▸ hone) hk1
        · intro k hklo hkhi
          rcases Nat.lt_succ_iff_lt_or_eq.mp hkhi with h | h
          · rw [hnoup]; exact h5 k hklo h
          · rw [h, hnoup, hone, h2]
            omega
      · by_cases hle : sz g n ≤ st'.2
        · have hup : st = (posOf n, sz g n) := by
            rw [hstep, if_pos ⟨hle, hone⟩]
          right
          refine ⟨n, by omega, by rw [hup], by rw [hup], hone, ?_, ?_⟩
          · intro k hk hk1
            rcases Nat.lt_succ_iff_lt_or_eq.mp hk with h | h
            · rw [hup]
              exact le_trans hle (h2 ▸ h4 k h hk1)
            · rw [hup, h]
          · intro k hklo hkhi
            omega
        · have hnoup : st = st' := by
            rw [hstep, if_neg (by simp [hle])]
          right
          refine ⟨k0, by omega, by rw [hnoup]; exact h1, by rw [hnoup]; exact h2,
            h3, ?_, ?_⟩
          · intro k hk hk1
            rcases Nat.lt_succ_iff_lt_or_eq.mp hk with h | h
            · rw [hnoup]; exact h4 k h hk1
            · rw [hnoup, h]
              omega
          · intro k hklo hkhi
            rcases Nat.lt_succ_iff_lt_or_eq.mp hkhi with h | h
            · rw [hnoup]; exact h5 k hklo h
            · rw [h, hnoup]
              omega

/-- C4 counterexample: on a board where (0,0) and (0,1) are tied for the
smallest candidate-set size (2), `MRV.select_variable` returns (0,1),
the later cell in row-major order, not the first. -/
theorem c4_counterexample :
    mrv tieGrid = (0, 1) ∧ (cellsGet tieGrid 0 0).length = 2 ∧
    (cellsGet tieGrid 0 1).length = 2 := by
  decide

/-- C4 amended: on a 9 by 9 board with nonempty domains of size at most
9 and at least one multi-candidate cell, `MRV.select_variable` returns
the coordinates of a cell whose candidate-set size is the smallest size
greater than one, and when several cells share that smallest size it
returns the LAST such cell in row-major scan order. -/
theorem c4_amended (g : Grid) (hsz : ∀ k < 81, 1 ≤ sz g k ∧ sz g k ≤ 9)
    (hex : ∃ k, k < 81 ∧ 1 < sz g k) :
    ∃ k0, k0 < 81 ∧ mrv g = posOf k0 ∧ 1 < sz g k0 ∧
      (∀ k < 81, 1 < sz g k → sz g k0 ≤ sz g k) ∧
      ∀ k, k0 < k → k < 81 → sz g k ≠ sz g k0 := by
  have hinv := mrvFold_inv g hsz 81 le_rfl
    (allPos.foldl (mrvStep g) ((0, 0), 9)) rfl
  rcases hinv with ⟨_, hall⟩ | ⟨k0, hk0, h1, h2, h3, h4, h5⟩
  · obtain ⟨k, hk, hgt⟩ := hex
    exact absurd (hall k hk) (by omega)
  · refine ⟨k0, hk0, h1, ?_, ?_, ?_⟩
    · have := (hsz k0 hk0).1
      omega
    · intro k hk hgt
      have := h4 k hk (by omega)
      omega
    · intro k hklo hkhi
      have := h5 k hklo hkhi
      omega

/-- C4 witness: the amended theorem applied to `minG`, whose unique
smallest multi-candidate cell is (1,1) (row-major index 10). -/
theorem c4_witness :
    (∀ k < 81, 1 ≤ sz minG k ∧ sz minG k ≤ 9) ∧
    ∃ k0, k0 < 81 ∧ mrv minG = posOf k0 ∧ 1 < sz minG k0 ∧
      (∀ k < 81, 1 < sz minG k → sz minG k0 ≤ sz minG k) ∧
      ∀ k, k0 < k → k < 81 → sz minG k ≠ sz minG k0 :=
  ⟨by decide, c4_amended minG (by decide) ⟨10, by decide, by decide⟩⟩

/-! ### Claim C5 -/

/-- C5 counterexample: on a fully solved board `MRV.select_variable`
does not return a none-like sentinel; it returns (0,0), the coordinates
of a fixed cell. -/
theorem c5_counterexample :
    isSolved goodGrid = true ∧ mrv goodGrid = (0, 0) ∧
    (cellsGet goodGrid 0 0).length = 1 := by
  decide

theorem mrvFold_fixed (g : Grid) :
    ∀ (l : List (Nat × Nat)) (st : (Nat × Nat) × Nat),
      (∀ p ∈ l, (cellsGet g p.1 p.2).length = 1) → l.foldl (mrvStep g) st = st := by
  intro l
  induction l with
  | nil => intro st _; rfl
  | cons p ps ih =>
    intro st hall
    simp only [List.foldl_cons]
    have hstep : mrvStep g st p = st := by
      unfold mrvStep
      rw [if_neg (by simp [hall p (List.mem_cons_self p ps)])]
    rw [hstep]
    exact ih st fun q hq => hall q (List.mem_cons_of_mem p hq)

/-- C5 amended: on a fully solved board `FirstAvailable.select_variable`
returns `None`, while `MRV.select_variable` returns the pair (0,0) — the
coordinates of the fixed cell (0,0), not a none-like sentinel. -/
theorem c5_amended (g : Grid) (h : isSolved g = true) :
    faSelect g = none ∧ mrv g = (0, 0) := by
  have hall : ∀ p ∈ allPos, (cellsGet g p.1 p.2).length = 1 := by
    intro p hp
    have := List.all_eq_true.mp h p hp
    simpa using this
  constructor
  · apply List.find?_eq_none.mpr
    intro p hp
    simp [hall p hp]
  · unfold mrv
    rw [mrvFold_fixed g allPos ((0, 0), 9) hall]

/-- C5 witness: the amended theorem applied to the solved board
obtained from the all-unknown input after filling every cell; here we
use a directly parsed solved board. -/
theorem c5_witness :
    isSolved badGrid = true ∧ faSelect badGrid = none ∧ mrv badGrid = (0, 0) := by
  exact ⟨by decide, (c5_amended badGrid (by decide)).1, (c5_amended badGrid (by decide)).2⟩

/-! ### Properties of domain removal -/

theorem removeOccF_sublist (p : Char) (ps : List Char) :
    ∀ (fuel : Nat) (s : List Char), List.Sublist (removeOccF p ps fuel s) s := by
  intro fuel
  induction fuel with
  | zero =>
    intro s
    cases s with
    | nil => exact List.Sublist.refl _
    | cons c cs => exact List.Sublist.refl _
  | succ fuel ih =>
    intro s
    cases s with
    | nil => exact List.Sublist.refl _
    | cons c cs =>
      rw [removeOccF]
      by_cases h : startsWithL (p :: ps) (c :: cs) = true
      · rw [if_pos h]
        exact (ih _).trans ((List.drop_sublist _ _).cons c)
      · rw [if_neg h]
        exact (ih cs).cons₂ c

theorem removeOcc1_sublist (p : Char) (ps : List Char) :
    ∀ s, List.Sublist (removeOcc1 p ps s) s :=
  fun s => removeOccF_sublist p ps s.length s

theorem replaceSub_sublist (s pat : Cell) : List.Sublist (replaceSub s pat) s := by
  cases pat with
  | nil => exact List.Sublist.refl s
  | cons p ps => exact removeOcc1_sublist p ps s

theorem replaceSub_length_le (s pat : Cell) : (replaceSub s pat).length ≤ s.length :=
  (replaceSub_sublist s pat).length_le

theorem replaceSub_nil (pat : Cell) : replaceSub [] pat = [] := by
  cases pat with
  | nil => rfl
  | cons p ps => rfl

theorem removeOccF_single (w : Char) :
    ∀ (fuel : Nat) (s : Cell), s.length ≤ fuel →
      removeOccF w [] fuel s = s.filter fun c => !(c == w) := by
  intro fuel
  induction fuel with
  | zero =>
    intro s hs
    have hnil : s = [] := by
      cases s with
      | nil => rfl
      | cons a as => simp at hs
    rw [hnil]
    rfl
  | succ fuel ih =>
    intro s hs
    cases s with
    | nil => rfl
    | cons c cs =>
      rw [removeOccF]
      simp only [startsWithL, Bool.and_true]
      by_cases h : w = c
      · rw [if_pos (by simp [h])]
        simp only [List.length_nil, List.drop_zero]
        rw [ih cs (by simp at hs; omega)]
        simp [List.filter_cons, h]
      · rw [if_neg (by simp [h])]
        rw [ih cs (by simp at hs; omega)]
        have hne : (!(c == w)) = true := by
          simp
          exact fun he => h he.symm
        simp [List.filter_cons, hne]

theorem replaceSub_single (w : Char) :
    ∀ s : Cell, replaceSub s [w] = s.filter fun c => !(c == w) :=
  fun s => removeOccF_single w s.length s le_rfl

theorem replaceSub_single_not_mem {w : Char} {s : Cell} :
    w ∉ replaceSub s [w] := by
  rw [replaceSub_single]
  intro hmem
  have := List.mem_filter.mp hmem
  simp at this

/-! ### Properties of the removal sweep -/

theorem sweep_get_notmem (v : Cell) :
    ∀ (ps : List (Nat × Nat)) (g : Grid) (a b : Nat), (a, b) ∉ ps →
      cellsGet (sweep v ps g).1 a b = cellsGet g a b := by
  intro ps
  induction ps with
  | nil => intro g a b _; rfl
  | cons x ps ih =>
    intro g a b hmem
    obtain ⟨x1, x2⟩ := x
    rw [sweep]
    by_cases hf : (replaceSub (cellsGet g x1 x2) v).length = 0
    · rw [if_pos hf]
    · rw [if_neg hf]
      simp only
      rw [ih _ a b (fun hm => hmem (List.mem_cons_of_mem _ hm))]
      exact cellsGet_set_ne
        (fun ⟨h1, h2⟩ => hmem (by rw [h1, h2]; exact List.mem_cons_self _ _)) _

theorem sweep_sublist (v : Cell) :
    ∀ (ps : List (Nat × Nat)) (g : Grid) (a b : Nat),
      List.Sublist (cellsGet (sweep v ps g).1 a b) (cellsGet g a b) := by
  intro ps
  induction ps with
  | nil => intro g a b; exact List.Sublist.refl _
  | cons x ps ih =>
    intro g a b
    obtain ⟨x1, x2⟩ := x
    rw [sweep]
    by_cases hf : (replaceSub (cellsGet g x1 x2) v).length = 0
    · rw [if_pos hf]
    · rw [if_neg hf]
      simp only
      refine (ih _ a b).trans ?_
      by_cases hxy : x1 = a ∧ x2 = b
      · obtain ⟨rfl, rfl⟩ := hxy
        rcases cellsGet_set_cases g x1 x2 (replaceSub (cellsGet g x1 x2) v) x1 x2 with
          hc | hc
        · rw [hc]
        · rw [hc]
          exact replaceSub_sublist _ _
      · rw [cellsGet_set_ne hxy]

theorem sweep_new_singleton (v : Cell) :
    ∀ (ps : List (Nat × Nat)) (g : Grid), (sweep v ps g).2.2 = false →
      ∀ a b, (cellsGet (sweep v ps g).1 a b).length = 1 →
        cellsGet (sweep v ps g).1 a b = cellsGet g a b ∨ (a, b) ∈ (sweep v ps g).2.1 := by
  intro ps
  induction ps with
  | nil => intro g _ a b _; exact Or.inl rfl
  | cons x ps ih =>
    intro g hflag a b hlen
    obtain ⟨x1, x2⟩ := x
    rw [sweep] at hflag hlen ⊢
    by_cases hf : (replaceSub (cellsGet g x1 x2) v).length = 0
    · rw [if_pos hf] at hflag
      simp at hflag
    · rw [if_neg hf] at hflag hlen ⊢
      simp only at hflag hlen ⊢
      have hcell : cellsGet g x1 x2 ≠ [] := by
        intro hc
        rw [hc, replaceSub_nil] at hf
        simp at hf
      have hrange := cellsGet_ne_nil_range hcell
      have hset : cellsGet (cellsSet g x1 x2 (replaceSub (cellsGet g x1 x2) v)) x1 x2 =
          replaceSub (cellsGet g x1 x2) v :=
        cellsGet_set_eq hrange.1 hrange.2 _
      rcases ih _ hflag a b hlen with hold | hmem
      · rw [hold] at hlen ⊢
        by_cases hxy : x1 = a ∧ x2 = b
        · obtain ⟨rfl, rfl⟩ := hxy
          rw [hset] at hlen ⊢
          by_cases hbig : 1 < (cellsGet g x1 x2).length
          · right
            rw [if_pos ⟨hlen, hbig⟩]
            exact List.mem_cons_self _ _
          · left
            have hone : (cellsGet g x1 x2).length = 1 := by
              have := List.length_pos.mpr hcell
              omega
            exact (replaceSub_sublist _ _).eq_of_length (by rw [hlen, hone])
        · rw [cellsGet_set_ne hxy]
          exact Or.inl rfl
      · right
        exact List.mem_append_right _ hmem

theorem sweep_single_removed (w : Char) :
    ∀ (ps : List (Nat × Nat)) (g : Grid), (sweep [w] ps g).2.2 = false →
      ∀ x ∈ ps, w ∉ cellsGet (sweep [w] ps g).1 x.1 x.2 := by
  intro ps
  induction ps with
  | nil => intro g _ x hx; simp at hx
  | cons y ps ih =>
    intro g hflag x hx
    obtain ⟨y1, y2⟩ := y
    rw [sweep] at hflag ⊢
    by_cases hf : (replaceSub (cellsGet g y1 y2) [w]).length = 0
    · rw [if_pos hf] at hflag
      simp at hflag
    · rw [if_neg hf] at hflag ⊢
      simp only at hflag ⊢
      have hcell : cellsGet g y1 y2 ≠ [] := by
        intro hc
        rw [hc, replaceSub_nil] at hf
        simp at hf
      have hrange := cellsGet_ne_nil_range hcell
      have hset : cellsGet (cellsSet g y1 y2 (replaceSub (cellsGet g y1 y2) [w])) y1 y2 =
          replaceSub (cellsGet g y1 y2) [w] :=
        cellsGet_set_eq hrange.1 hrange.2 _
      rcases List.mem_cons.mp hx with hx1 | hx1
    -- head peer: its domain lost every w and later passes only shrink it
      · subst hx1
        intro hmemw
        have hsub := sweep_sublist [w] ps (cellsSet g y1 y2
          (replaceSub (cellsGet g y1 y2) [w])) y1 y2
        have : w ∈ cellsGet (cellsSet g y1 y2
            (replaceSub (cellsGet g y1 y2) [w])) y1 y2 := hsub.subset hmemw
        rw [hset] at this
        exact replaceSub_single_not_mem this
      · exact ih _ hflag x hx1

theorem sweep_nonempty (v : Cell) :
    ∀ (ps : List (Nat × Nat)) (g : Grid), Nonempty9 g → Nonempty9 (sweep v ps g).1 := by
  intro ps
  induction ps with
  | nil => intro g hg; exact hg
  | cons x ps ih =>
    intro g hg
    obtain ⟨x1, x2⟩ := x
    rw [sweep]
    by_cases hf : (replaceSub (cellsGet g x1 x2) v).length = 0
    · rw [if_pos hf]
      exact hg
    · rw [if_neg hf]
      simp only
      apply ih
      intro i hi j hj
      rcases cellsGet_set_cases g x1 x2 (replaceSub (cellsGet g x1 x2) v) i j with
        hc | hc
      · rw [hc]
        exact hg i hi j hj
      · rw [hc]
        intro hnil
        rw [hnil] at hf
        simp at hf

theorem sweep_size (v : Cell) :
    ∀ (ps : List (Nat × Nat)) (g : Grid),
      totalSize (sweep v ps g).1 + (sweep v ps g).2.1.length ≤ totalSize g := by
  intro ps
  induction ps with
  | nil =>
    intro g
    rw [sweep]
    simp
  | cons x ps ih =>
    intro g
    obtain ⟨x1, x2⟩ := x
    rw [sweep]
    by_cases hf : (replaceSub (cellsGet g x1 x2) v).length = 0
    · rw [if_pos hf]
      simp
    · rw [if_neg hf]
      simp only
      have hcell : cellsGet g x1 x2 ≠ [] := by
        intro hc
        rw [hc, replaceSub_nil] at hf
        simp at hf
      have hrange := cellsGet_ne_nil_range hcell
      have hts : totalSize (cellsSet g x1 x2 (replaceSub (cellsGet g x1 x2) v)) +
          (cellsGet g x1 x2).length =
          totalSize g + (replaceSub (cellsGet g x1 x2) v).length :=
        totalSize_set g x1 x2 _ hrange.1 hrange.2
      have hle := replaceSub_length_le (cellsGet g x1 x2) v
      have hrec := ih (cellsSet g x1 x2 (replaceSub (cellsGet g x1 x2) v))
      by_cases hcond : (replaceSub (cellsGet g x1 x2) v).length = 1 ∧
          1 < (cellsGet g x1 x2).length
      · rw [if_pos hcond]
        simp only [List.length_append, List.length_cons, List.length_nil]
        omega
      · rw [if_neg hcond]
        simp only [List.nil_append]
        omega

/-! ### The consistency loop -/

theorem consistencyF_cons (fuel : Nat) (g : Grid) (r c : Nat) (Q : List (Nat × Nat)) :
    consistencyF (fuel + 1) g ((r, c) :: Q) =
      if ((removeDomainRow g r c).2.2 ||
          (removeDomainColumn (removeDomainRow g r c).1 r c).2.2 ||
          (removeDomainUnit (removeDomainColumn (removeDomainRow g r c).1 r c).1 r c).2.2)
      then some
        ((removeDomainUnit (removeDomainColumn (removeDomainRow g r c).1 r c).1 r c).1,
          true)
      else
        consistencyF fuel
          (removeDomainUnit (removeDomainColumn (removeDomainRow g r c).1 r c).1 r c).1
          (addVars Q ((removeDomainRow g r c).2.1 ++
            (removeDomainColumn (removeDomainRow g r c).1 r c).2.1 ++
            (removeDomainUnit (removeDomainColumn (removeDomainRow g r c).1 r c).1 r c).2.1)) :=
  rfl

theorem addVars_length : ∀ (vs Q : List (Nat × Nat)),
    (addVars Q vs).length ≤ Q.length + vs.length := by
  intro vs
  induction vs with
  | nil => intro Q; simp [addVars]
  | cons v vs ih =>
    intro Q
    show ((v :: vs).foldl (fun q w => if w ∈ q then q else q ++ [w]) Q).length ≤ _
    simp only [List.foldl_cons]
    have h1 : ((if v ∈ Q then Q else Q ++ [v])).length ≤ Q.length + 1 := by
      split
      · omega
      · simp
    have h2 := ih (if v ∈ Q then Q else Q ++ [v])
    simp only [List.length_cons]
    calc ((vs.foldl (fun q w => if w ∈ q then q else q ++ [w])
            (if v ∈ Q then Q else Q ++ [v]))).length
        ≤ (if v ∈ Q then Q else Q ++ [v]).length + vs.length := h2
      _ ≤ Q.length + 1 + vs.length := by omega
      _ = Q.length + (vs.length + 1) := by omega

theorem addVars_mem_left : ∀ (vs Q : List (Nat × Nat)) (p : Nat × Nat),
    p ∈ Q → p ∈ addVars Q vs := by
  intro vs
  induction vs with
  | nil => intro Q p hp; exact hp
  | cons v vs ih =>
    intro Q p hp
    show p ∈ (v :: vs).foldl (fun q w => if w ∈ q then q else q ++ [w]) Q
    simp only [List.foldl_cons]
    apply ih
    split
    · exact hp
    · exact List.mem_append_left _ hp

theorem addVars_mem_right : ∀ (vs Q : List (Nat × Nat)) (p : Nat × Nat),
    p ∈ vs → p ∈ addVars Q vs := by
  intro vs
  induction vs with
  | nil => intro Q p hp; simp at hp
  | cons v vs ih =>
    intro Q p hp
    show p ∈ (v :: vs).foldl (fun q w => if w ∈ q then q else q ++ [w]) Q
    simp only [List.foldl_cons]
    rcases List.mem_cons.mp hp with hp1 | hp1
    · subst hp1
      apply addVars_mem_left
      split
      · assumption
      · exact List.mem_append_right _ (List.mem_singleton.mpr rfl)
    · exact ih _ p hp1

theorem consistencyF_isSome : ∀ (fuel : Nat) (g : Grid) (Q : List (Nat × Nat)),
    totalSize g + Q.length < fuel → (consistencyF fuel g Q).isSome = true := by
  intro fuel
  induction fuel with
  | zero => intro g Q h; omega
  | succ fuel ih =>
    intro g Q h
    cases Q with
    | nil => rfl
    | cons rc Q =>
      obtain ⟨r, c⟩ := rc
      rw [consistencyF_cons]
      by_cases hflag : ((removeDomainRow g r c).2.2 ||
          (removeDomainColumn (removeDomainRow g r c).1 r c).2.2 ||
          (removeDomainUnit (removeDomainColumn (removeDomainRow g r c).1 r c).1 r c).2.2) = true
      · rw [if_pos hflag]
        rfl
      · rw [if_neg hflag]
        apply ih
        have s1 : totalSize (removeDomainRow g r c).1 +
            (removeDomainRow g r c).2.1.length ≤ totalSize g := sweep_size _ _ _
        have s2 : totalSize (removeDomainColumn (removeDomainRow g r c).1 r c).1 +
            (removeDomainColumn (removeDomainRow g r c).1 r c).2.1.length ≤
            totalSize (removeDomainRow g r c).1 := sweep_size _ _ _
        have s3 : totalSize (removeDomainUnit
              (removeDomainColumn (removeDomainRow g r c).1 r c).1 r c).1 +
            (removeDomainUnit (removeDomainColumn (removeDomainRow g r c).1 r c).1 r c).2.1.length ≤
            totalSize (removeDomainColumn (removeDomainRow g r c).1 r c).1 :=
          sweep_size _ _ _
        have hadd := addVars_length ((removeDomainRow g r c).2.1 ++
          (removeDomainColumn (removeDomainRow g r c).1 r c).2.1 ++
          (removeDomainUnit (removeDomainColumn (removeDomainRow g r c).1 r c).1 r c).2.1) Q
        simp only [List.length_append] at hadd
        simp only [List.length_cons] at h
        omega

/-! ### Claim C10 -/

/-- C10: `AC3.consistency` terminates for every grid and every initial
queue: with fuel `totalSize g + Q.length + 1` the loop always reaches
an answer (each processed coordinate only shrinks peer domains and a
coordinate is enqueued only when its domain newly becomes a singleton,
so the sum of domain sizes plus the queue length strictly decreases at
every iteration). -/
theorem c10_termination : ∀ (g : Grid) (Q : List (Nat × Nat)),
    (consistencyF (totalSize g + Q.length + 1) g Q).isSome = true :=
  fun g Q => consistencyF_isSome _ g Q (by omega)

theorem consistencyF_consistency (g : Grid) (Q : List (Nat × Nat)) :
    consistencyF (totalSize g + Q.length + 1) g Q = some (consistency g Q) := by
  have h := consistencyF_isSome (totalSize g + Q.length + 1) g Q (by omega)
  obtain ⟨r, hr⟩ := Option.isSome_iff_exists.mp h
  unfold consistency
  rw [hr]
  rfl

/-! ### Units and peers -/

theorem mem_allPos {p : Nat × Nat} : p ∈ allPos ↔ p.1 < 9 ∧ p.2 < 9 := by
  obtain ⟨a, b⟩ := p
  simp only [allPos, List.mem_map, List.mem_range, posOf]
  constructor
  · rintro ⟨k, hk, he⟩
    cases he
    constructor
    · omega
    · omega
  · rintro ⟨h1, h2⟩
    refine ⟨9 * a + b, by omega, ?_⟩
    simp only [Prod.mk.injEq]
    constructor
    · omega
    · omega

theorem mem_fixedCells {g : Grid} {p : Nat × Nat} :
    p ∈ fixedCells g ↔ p ∈ allPos ∧ (cellsGet g p.1 p.2).length = 1 := by
  simp [fixedCells, List.mem_filter]

theorem mem_rowUnit {a b r : Nat} : (a, b) ∈ rowUnit r ↔ a = r ∧ b < 9 := by
  simp only [rowUnit, List.mem_map, List.mem_range]
  constructor
  · rintro ⟨j, hj, he⟩
    cases he
    exact ⟨rfl, hj⟩
  · rintro ⟨rfl, hb⟩
    exact ⟨b, hb, rfl⟩

theorem mem_colUnit {a b c : Nat} : (a, b) ∈ colUnit c ↔ b = c ∧ a < 9 := by
  simp only [colUnit, List.mem_map, List.mem_range]
  constructor
  · rintro ⟨i, hi, he⟩
    cases he
    exact ⟨rfl, hi⟩
  · rintro ⟨rfl, ha⟩
    exact ⟨a, ha, rfl⟩

theorem mem_boxUnit {a b br bc : Nat} : (a, b) ∈ boxUnit br bc ↔
    (3 * br ≤ a ∧ a < 3 * br + 3 ∧ 3 * bc ≤ b ∧ b < 3 * bc + 3) := by
  simp only [boxUnit, List.mem_map, List.mem_range]
  constructor
  · rintro ⟨k, hk, he⟩
    cases he
    omega
  · intro h
    refine ⟨(a - 3 * br) * 3 + (b - 3 * bc), by omega, ?_⟩
    simp only [Prod.mk.injEq]
    constructor
    · omega
    · omega

theorem rowUnit_mem_units {r : Nat} (hr : r < 9) : rowUnit r ∈ units := by
  unfold units
  refine List.mem_append_left _ (List.mem_append_left _ ?_)
  exact List.mem_map.mpr ⟨r, List.mem_range.mpr hr, rfl⟩

theorem colUnit_mem_units {c : Nat} (hc : c < 9) : colUnit c ∈ units := by
  unfold units
  refine List.mem_append_left _ (List.mem_append_right _ ?_)
  exact List.mem_map.mpr ⟨c, List.mem_range.mpr hc, rfl⟩

theorem boxUnit_mem_units {br bc : Nat} (h1 : br < 3) (h2 : bc < 3) :
    boxUnit br bc ∈ units := by
  unfold units
  refine List.mem_append_right _ ?_
  refine List.mem_map.mpr ⟨3 * br + bc, List.mem_range.mpr (by omega), ?_⟩
  have e1 : (3 * br + bc) / 3 = br := by omega
  have e2 : (3 * br + bc) % 3 = bc := by omega
  rw [e1, e2]

theorem mem_rowPeers {r c a b : Nat} :
    (a, b) ∈ rowPeers r c ↔ a = r ∧ b < 9 ∧ b ≠ c := by
  simp only [rowPeers, List.mem_map, List.mem_filter, List.mem_range,
    decide_eq_true_eq]
  constructor
  · rintro ⟨j, ⟨hj, hjc⟩, he⟩
    cases he
    exact ⟨rfl, hj, hjc⟩
  · rintro ⟨rfl, hb, hbc⟩
    exact ⟨b, ⟨hb, hbc⟩, rfl⟩

theorem mem_colPeers {r c a b : Nat} :
    (a, b) ∈ colPeers r c ↔ b = c ∧ a < 9 ∧ a ≠ r := by
  simp only [colPeers, List.mem_map, List.mem_filter, List.mem_range,
    decide_eq_true_eq]
  constructor
  · rintro ⟨i, ⟨hi, hir⟩, he⟩
    cases he
    exact ⟨rfl, hi, hir⟩
  · rintro ⟨rfl, ha, har⟩
    exact ⟨a, ⟨ha, har⟩, rfl⟩

theorem mem_boxPeers {r c a b : Nat} :
    (a, b) ∈ boxPeers r c ↔ (a, b) ∈ boxUnit (r / 3) (c / 3) ∧ (a, b) ≠ (r, c) := by
  simp only [boxPeers, List.mem_filter, decide_eq_true_eq]

theorem same_unit_mem_peers {u : List (Nat × Nat)} (hu : u ∈ units) {r c a b : Nat}
    (h1 : (r, c) ∈ u) (h2 : (a, b) ∈ u) (hne : (a, b) ≠ (r, c)) :
    (a, b) ∈ rowPeers r c ∨ (a, b) ∈ colPeers r c ∨ (a, b) ∈ boxPeers r c := by
  unfold units at hu
  rcases List.mem_append.mp hu with hu1 | hu1
  · rcases List.mem_append.mp hu1 with hu2 | hu2
    · obtain ⟨r0, _, rfl⟩ := List.mem_map.mp hu2
      obtain ⟨hr1, hc1⟩ := mem_rowUnit.mp h1
      obtain ⟨hr2, hc2⟩ := mem_rowUnit.mp h2
      subst hr1
      subst hr2
      left
      refine mem_rowPeers.mpr ⟨rfl, hc2, fun hbc => hne (by rw [hbc])⟩
    · obtain ⟨c0, _, rfl⟩ := List.mem_map.mp hu2
      obtain ⟨hc1, hr1⟩ := mem_colUnit.mp h1
      obtain ⟨hc2, hr2⟩ := mem_colUnit.mp h2
      subst hc1
      subst hc2
      right
      left
      refine mem_colPeers.mpr ⟨rfl, hr2, fun har => hne (by rw [har])⟩
  · obtain ⟨t, _, rfl⟩ := List.mem_map.mp hu1
    have hb1 := mem_boxUnit.mp h1
    have hb2 := mem_boxUnit.mp h2
    right
    right
    refine mem_boxPeers.mpr ⟨mem_boxUnit.mpr ?_, hne⟩
    have e1 : r / 3 = t / 3 := by omega
    have e2 : c / 3 = t % 3 := by omega
    rw [e1, e2]
    omega

/-! ### Claim C7 -/

theorem sweep_noop (w : Char) :
    ∀ (ps : List (Nat × Nat)) (g : Grid),
      (∀ x ∈ ps, w ∉ cellsGet g x.1 x.2 ∧ cellsGet g x.1 x.2 ≠ []) →
      sweep [w] ps g = (g, [], false) := by
  intro ps
  induction ps with
  | nil => intro g _; rfl
  | cons y ps ih =>
    intro g hps
    obtain ⟨y1, y2⟩ := y
    obtain ⟨hw, hne⟩ := hps (y1, y2) (List.mem_cons_self _ _)
    have hnd : replaceSub (cellsGet g y1 y2) [w] = cellsGet g y1 y2 := by
      rw [replaceSub_single]
      apply List.filter_eq_self.mpr
      intro a ha
      simp only [Bool.not_eq_eq_eq_not, Bool.not_true, beq_eq_false_iff_ne, ne_eq]
      intro he
      exact hw (he ▸ ha)
    rw [sweep, hnd]
    rw [if_neg (fun h0 => hne (List.length_eq_zero.mp h0))]
    simp only
    rw [if_neg (by rintro ⟨e1, e2⟩; omega)]
    rw [cellsSet_get_self]
    rw [ih g (fun x hx => hps x (List.mem_cons_of_mem _ hx))]
    rfl

theorem consistencyF_fixed_noop (g : Grid) (hfp : FixedPoint g) :
    ∀ (fuel : Nat) (Q : List (Nat × Nat)), Q.length < fuel →
      (∀ p ∈ Q, (cellsGet g p.1 p.2).length = 1 ∧ p.1 < 9 ∧ p.2 < 9) →
      consistencyF fuel g Q = some (g, false) := by
  intro fuel
  induction fuel with
  | zero => intro Q h _; omega
  | succ fuel ih =>
    intro Q hlen hmem
    cases Q with
    | nil => rfl
    | cons rc Q =>
      obtain ⟨r, c⟩ := rc
      obtain ⟨hfix, hr9, hc9⟩ := hmem (r, c) (List.mem_cons_self _ _)
      obtain ⟨w, hw⟩ := List.length_eq_one.mp hfix
      have hwmem : w ∈ cellsGet g r c := by rw [hw]; exact List.mem_singleton.mpr rfl
      have hrow : removeDomainRow g r c = (g, [], false) := by
        unfold removeDomainRow
        rw [hw]
        apply sweep_noop
        rintro ⟨a, b⟩ hx
        obtain ⟨rfl, hb9, hbc⟩ := mem_rowPeers.mp hx
        refine ⟨?_, hfp.1 a hr9 b hb9⟩
        exact hfp.2 (rowUnit a) (rowUnit_mem_units hr9) (a, c)
          (mem_rowUnit.mpr ⟨rfl, hc9⟩) (a, b) (mem_rowUnit.mpr ⟨rfl, hb9⟩)
          (by simp [Prod.ext_iff]; omega) hfix w hwmem
      have hcol : removeDomainColumn g r c = (g, [], false) := by
        unfold removeDomainColumn
        rw [hw]
        apply sweep_noop
        rintro ⟨a, b⟩ hx
        obtain ⟨rfl, ha9, har⟩ := mem_colPeers.mp hx
        refine ⟨?_, hfp.1 a ha9 b hc9⟩
        exact hfp.2 (colUnit b) (colUnit_mem_units hc9) (r, b)
          (mem_colUnit.mpr ⟨rfl, hr9⟩) (a, b) (mem_colUnit.mpr ⟨rfl, ha9⟩)
          (by simp [Prod.ext_iff]; omega) hfix w hwmem
      have hbox : removeDomainUnit g r c = (g, [], false) := by
        unfold removeDomainUnit
        rw [hw]
        apply sweep_noop
        rintro ⟨a, b⟩ hx
        obtain ⟨hxu, hxne⟩ := mem_boxPeers.mp hx
        have hbounds := mem_boxUnit.mp hxu
        refine ⟨?_, hfp.1 a (by omega) b (by omega)⟩
        exact hfp.2 (boxUnit (r / 3) (c / 3)) (boxUnit_mem_units (by omega) (by omega))
          (r, c) (mem_boxUnit.mpr (by omega)) (a, b) hxu
          (fun he => hxne (by rw [he])) hfix w hwmem
      rw [consistencyF_cons, hrow]
      simp only
      rw [hcol]
      simp only
      rw [hbox]
      simp only [Bool.or_self, Bool.or_false]
      rw [if_neg (by simp)]
      simp only [List.append_nil, List.nil_append]
      show consistencyF fuel g (addVars Q []) = some (g, false)
      show consistencyF fuel g Q = some (g, false)
      apply ih Q (by simpa using Nat.lt_of_succ_lt_succ (by simpa using hlen))
      exact fun p hp => hmem p (List.mem_cons_of_mem _ hp)

/-- C7: propagation is idempotent at a fixed point. For every board with
no empty cell and no applicable elimination (every singleton's value
absent from all its row, column and box peers), running
`AC3.pre_process_consistency` (which seeds `AC3.consistency` with all
fixed cells) leaves every cell unchanged and reports no contradiction. -/
theorem c7_idempotent (g : Grid) (hfp : FixedPoint g) : preProcess g = (g, false) := by
  unfold preProcess consistency
  rw [consistencyF_fixed_noop g hfp _ (fixedCells g) (by omega) ?memh]
  case memh =>
    intro p hp
    rw [mem_fixedCells] at hp
    have hp9 := mem_allPos.mp hp.1
    exact ⟨hp.2, hp9.1, hp9.2⟩
  rfl

/-- C7 witness: the idempotence theorem applied to the parsed valid
solved board. -/
theorem c7_witness : FixedPoint goodGrid ∧ preProcess goodGrid = (goodGrid, false) :=
  ⟨by unfold FixedPoint Nonempty9; decide,
    c7_idempotent goodGrid (by unfold FixedPoint Nonempty9; decide)⟩

/-! ### Invariants of the consistency loop -/

theorem not_mem_rowPeers_self (r c : Nat) : (r, c) ∉ rowPeers r c := by
  intro h
  exact (mem_rowPeers.mp h).2.2 rfl

theorem not_mem_colPeers_self (r c : Nat) : (r, c) ∉ colPeers r c := by
  intro h
  exact (mem_colPeers.mp h).2.2 rfl

theorem consistencyF_sublist : ∀ (fuel : Nat) (g : Grid) (Q : List (Nat × Nat))
    (gf : Grid) (fl : Bool), consistencyF fuel g Q = some (gf, fl) →
    ∀ a b, List.Sublist (cellsGet gf a b) (cellsGet g a b) := by
  intro fuel
  induction fuel with
  | zero => intro g Q gf fl h; simp [consistencyF] at h
  | succ fuel ih =>
    intro g Q gf fl h a b
    cases Q with
    | nil =>
      obtain ⟨rfl, -⟩ : g = gf ∧ false = fl := by simpa [consistencyF] using h
      exact List.Sublist.refl _
    | cons rc Q =>
      obtain ⟨r, c⟩ := rc
      rw [consistencyF_cons] at h
      have chain : List.Sublist
          (cellsGet (removeDomainUnit (removeDomainColumn
            (removeDomainRow g r c).1 r c).1 r c).1 a b)
          (cellsGet g a b) :=
        (sweep_sublist _ _ _ a b).trans
          ((sweep_sublist _ _ _ a b).trans (sweep_sublist _ _ _ a b))
      by_cases hflag : ((removeDomainRow g r c).2.2 ||
          (removeDomainColumn (removeDomainRow g r c).1 r c).2.2 ||
          (removeDomainUnit (removeDomainColumn (removeDomainRow g r c).1 r c).1 r c).2.2) = true
      · rw [if_pos hflag] at h
        obtain ⟨rfl, -⟩ : (removeDomainUnit (removeDomainColumn
            (removeDomainRow g r c).1 r c).1 r c).1 = gf ∧ true = fl := by simpa using h
        exact chain
      · rw [if_neg hflag] at h
        exact (ih _ _ _ _ h a b).trans chain

theorem consistencyF_nonempty : ∀ (fuel : Nat) (g : Grid) (Q : List (Nat × Nat))
    (gf : Grid) (fl : Bool), consistencyF fuel g Q = some (gf, fl) →
    Nonempty9 g → Nonempty9 gf := by
  intro fuel
  induction fuel with
  | zero => intro g Q gf fl h; simp [consistencyF] at h
  | succ fuel ih =>
    intro g Q gf fl h hne
    cases Q with
    | nil =>
      obtain ⟨rfl, -⟩ : g = gf ∧ false = fl := by simpa [consistencyF] using h
      exact hne
    | cons rc Q =>
      obtain ⟨r, c⟩ := rc
      rw [consistencyF_cons] at h
      have hne3 : Nonempty9 (removeDomainUnit (removeDomainColumn
          (removeDomainRow g r c).1 r c).1 r c).1 :=
        sweep_nonempty _ _ _ (sweep_nonempty _ _ _ (sweep_nonempty _ _ _ hne))
      by_cases hflag : ((removeDomainRow g r c).2.2 ||
          (removeDomainColumn (removeDomainRow g r c).1 r c).2.2 ||
          (removeDomainUnit (removeDomainColumn (removeDomainRow g r c).1 r c).1 r c).2.2) = true
      · rw [if_pos hflag] at h
        obtain ⟨rfl, -⟩ : (removeDomainUnit (removeDomainColumn
            (removeDomainRow g r c).1 r c).1 r c).1 = gf ∧ true = fl := by simpa using h
        exact hne3
      · rw [if_neg hflag] at h
        exact ih _ _ _ _ h hne3

theorem passes_preserve_R (g g1 g2 g3 : Grid) (r c : Nat)
    (v1 v2 v3 Q : List (Nat × Nat))
    (e1 : removeDomainRow g r c = (g1, v1, false))
    (e2 : removeDomainColumn g1 r c = (g2, v2, false))
    (e3 : removeDomainUnit g2 r c = (g3, v3, false))
    (hR : R g ((r, c) :: Q)) :
    R g3 (addVars Q (v1 ++ v2 ++ v3)) := by
  have e1s : sweep (cellsGet g r c) (rowPeers r c) g = (g1, v1, false) := e1
  have e2s : sweep (cellsGet g1 r c) (colPeers r c) g1 = (g2, v2, false) := e2
  have e3s : sweep (cellsGet g2 r c) (boxPeers r c) g2 = (g3, v3, false) := e3
  have hv1 : cellsGet g1 r c = cellsGet g r c := by
    have h0 := sweep_get_notmem (cellsGet g r c) (rowPeers r c) g r c
      (not_mem_rowPeers_self r c)
    rw [e1s] at h0
    exact h0
  have hv2 : cellsGet g2 r c = cellsGet g r c := by
    have h0 := sweep_get_notmem (cellsGet g1 r c) (colPeers r c) g1 r c
      (not_mem_colPeers_self r c)
    rw [e2s] at h0
    rw [h0, hv1]
  have sub1 : ∀ a b, List.Sublist (cellsGet g1 a b) (cellsGet g a b) := by
    intro a b
    have h0 := sweep_sublist (cellsGet g r c) (rowPeers r c) g a b
    rw [e1s] at h0
    exact h0
  have sub2 : ∀ a b, List.Sublist (cellsGet g2 a b) (cellsGet g1 a b) := by
    intro a b
    have h0 := sweep_sublist (cellsGet g1 r c) (colPeers r c) g1 a b
    rw [e2s] at h0
    exact h0
  have sub3 : ∀ a b, List.Sublist (cellsGet g3 a b) (cellsGet g2 a b) := by
    intro a b
    have h0 := sweep_sublist (cellsGet g2 r c) (boxPeers r c) g2 a b
    rw [e3s] at h0
    exact h0
  have ns1 : ∀ a b, (cellsGet g1 a b).length = 1 →
      cellsGet g1 a b = cellsGet g a b ∨ (a, b) ∈ v1 := by
    intro a b hl
    have h0 := sweep_new_singleton (cellsGet g r c) (rowPeers r c) g
    rw [e1s] at h0
    exact h0 rfl a b hl
  have ns2 : ∀ a b, (cellsGet g2 a b).length = 1 →
      cellsGet g2 a b = cellsGet g1 a b ∨ (a, b) ∈ v2 := by
    intro a b hl
    have h0 := sweep_new_singleton (cellsGet g1 r c) (colPeers r c) g1
    rw [e2s] at h0
    exact h0 rfl a b hl
  have ns3 : ∀ a b, (cellsGet g3 a b).length = 1 →
      cellsGet g3 a b = cellsGet g2 a b ∨ (a, b) ∈ v3 := by
    intro a b hl
    have h0 := sweep_new_singleton (cellsGet g2 r c) (boxPeers r c) g2
    rw [e3s] at h0
    exact h0 rfl a b hl
  have track : ∀ a b, (cellsGet g3 a b).length = 1 →
      cellsGet g3 a b = cellsGet g a b ∨
        (a, b) ∈ v1 ∨ (a, b) ∈ v2 ∨ (a, b) ∈ v3 := by
    intro a b hl
    rcases ns3 a b hl with h3 | h3
    · rw [h3] at hl ⊢
      rcases ns2 a b hl with h2 | h2
      · rw [h2] at hl ⊢
        rcases ns1 a b hl with h1 | h1
        · exact Or.inl h1
        · exact Or.inr (Or.inl h1)
      · exact Or.inr (Or.inr (Or.inl h2))
    · exact Or.inr (Or.inr (Or.inr h3))
  have memvars : ∀ x : Nat × Nat, (x ∈ v1 ∨ x ∈ v2 ∨ x ∈ v3) →
      x ∈ addVars Q (v1 ++ v2 ++ v3) := by
    intro x hx
    apply addVars_mem_right
    rcases hx with h | h | h
    · exact List.mem_append_left _ (List.mem_append_left _ h)
    · exact List.mem_append_left _ (List.mem_append_right _ h)
    · exact List.mem_append_right _ h
  intro u hu p hp q hq hpq hplen hpeq
  obtain ⟨pa, pb⟩ := p
  obtain ⟨qa, qb⟩ := q
  dsimp only at hplen hpeq
  have hqlen : (cellsGet g3 qa qb).length = 1 := by
    rw [← hpeq]
    exact hplen
  rcases track pa pb hplen with hpold | hpnew
  swap
  · exact Or.inl (memvars _ hpnew)
  rcases track qa qb hqlen with hqold | hqnew
  swap
  · exact Or.inr (memvars _ hqnew)
  have hplen0 : (cellsGet g pa pb).length = 1 := by
    rw [← hpold]
    exact hplen
  have hpeq0 : cellsGet g pa pb = cellsGet g qa qb := by
    rw [← hpold, ← hqold, hpeq]
  rcases hR u hu (pa, pb) hp (qa, qb) hq hpq hplen0 hpeq0 with hpin | hqin
  · rcases List.mem_cons.mp hpin with hpc | hpQ
    swap
    · exact Or.inl (addVars_mem_left _ _ _ hpQ)
    obtain ⟨rfl, rfl⟩ : pa = r ∧ pb = c := by simpa using hpc
    obtain ⟨w, hw⟩ := List.length_eq_one.mp hplen0
    have hqne : (qa, qb) ≠ (pa, pb) := fun he => hpq he.symm
    have hmem3 : w ∈ cellsGet g3 qa qb := by
      rw [← hpeq, hpold, hw]
      exact List.mem_singleton.mpr rfl
    rcases same_unit_mem_peers hu hp hq hqne with hqp | hqp | hqp
    · have e1w : sweep [w] (rowPeers pa pb) g = (g1, v1, false) := by
        rw [← hw]
        exact e1s
      have h0 := sweep_single_removed w (rowPeers pa pb) g (by rw [e1w]) (qa, qb) hqp
      rw [e1w] at h0
      exact absurd (((sub3 qa qb).trans (sub2 qa qb)).subset hmem3) h0
    · have hv1w : cellsGet g1 pa pb = [w] := by rw [hv1, hw]
      have e2w : sweep [w] (colPeers pa pb) g1 = (g2, v2, false) := by
        rw [← hv1w]
        exact e2s
      have h0 := sweep_single_removed w (colPeers pa pb) g1 (by rw [e2w]) (qa, qb) hqp
      rw [e2w] at h0
      exact absurd ((sub3 qa qb).subset hmem3) h0
    · have hv2w : cellsGet g2 pa pb = [w] := by rw [hv2, hw]
      have e3w : sweep [w] (boxPeers pa pb) g2 = (g3, v3, false) := by
        rw [← hv2w]
        exact e3s
      have h0 := sweep_single_removed w (boxPeers pa pb) g2 (by rw [e3w]) (qa, qb) hqp
      rw [e3w] at h0
      exact absurd hmem3 h0
  · rcases List.mem_cons.mp hqin with hqc | hqQ
    swap
    · exact Or.inr (addVars_mem_left _ _ _ hqQ)
    obtain ⟨rfl, rfl⟩ : qa = r ∧ qb = c := by simpa using hqc
    have hqlen0 : (cellsGet g qa qb).length = 1 := by
      rw [← hqold]
      exact hqlen
    obtain ⟨w, hw⟩ := List.length_eq_one.mp hqlen0
    have hpne : (pa, pb) ≠ (qa, qb) := hpq
    have hmem3 : w ∈ cellsGet g3 pa pb := by
      rw [hpeq, hqold, hw]
      exact List.mem_singleton.mpr rfl
    rcases same_unit_mem_peers hu hq hp hpne with hpp | hpp | hpp
    · have e1w : sweep [w] (rowPeers qa qb) g = (g1, v1, false) := by
        rw [← hw]
        exact e1s
      have h0 := sweep_single_removed w (rowPeers qa qb) g (by rw [e1w]) (pa, pb) hpp
      rw [e1w] at h0
      exact absurd (((sub3 pa pb).trans (sub2 pa pb)).subset hmem3) h0
    · have hv1w : cellsGet g1 qa qb = [w] := by rw [hv1, hw]
      have e2w : sweep [w] (colPeers qa qb) g1 = (g2, v2, false) := by
        rw [← hv1w]
        exact e2s
      have h0 := sweep_single_removed w (colPeers qa qb) g1 (by rw [e2w]) (pa, pb) hpp
      rw [e2w] at h0
      exact absurd ((sub3 pa pb).subset hmem3) h0
    · have hv2w : cellsGet g2 qa qb = [w] := by rw [hv2, hw]
      have e3w : sweep [w] (boxPeers qa qb) g2 = (g3, v3, false) := by
        rw [← hv2w]
        exact e3s
      have h0 := sweep_single_removed w (boxPeers qa qb) g2 (by rw [e3w]) (pa, pb) hpp
      rw [e3w] at h0
      exact absurd hmem3 h0

theorem consistencyF_R : ∀ (fuel : Nat) (g : Grid) (Q : List (Nat × Nat)) (gf : Grid),
    consistencyF fuel g Q = some (gf, false) → R g Q → R gf [] := by
  intro fuel
  induction fuel with
  | zero => intro g Q gf h; simp [consistencyF] at h
  | succ fuel ih =>
    intro g Q gf h hR
    cases Q with
    | nil =>
      obtain ⟨rfl, -⟩ : g = gf ∧ false = false := by simpa [consistencyF] using h
      intro u hu p hp q hq hpq hplen hpeq
      exact hR u hu p hp q hq hpq hplen hpeq
    | cons rc Q =>
      obtain ⟨r, c⟩ := rc
      rw [consistencyF_cons] at h
      by_cases hflag : ((removeDomainRow g r c).2.2 ||
          (removeDomainColumn (removeDomainRow g r c).1 r c).2.2 ||
          (removeDomainUnit (removeDomainColumn (removeDomainRow g r c).1 r c).1 r c).2.2) = true
      · rw [if_pos hflag] at h
        simp at h
      · rw [if_neg hflag] at h
        simp only [Bool.or_eq_true, not_or, Bool.not_eq_true] at hflag
        obtain ⟨⟨hf1, hf2⟩, hf3⟩ := hflag
        have e1 : removeDomainRow g r c =
            ((removeDomainRow g r c).1, (removeDomainRow g r c).2.1, false) := by
          rw [← hf1]
        have e2 : removeDomainColumn (removeDomainRow g r c).1 r c =
            ((removeDomainColumn (removeDomainRow g r c).1 r c).1,
              (removeDomainColumn (removeDomainRow g r c).1 r c).2.1, false) := by
          rw [← hf2]
        have e3 : removeDomainUnit (removeDomainColumn (removeDomainRow g r c).1 r c).1 r c =
            ((removeDomainUnit (removeDomainColumn
              (removeDomainRow g r c).1 r c).1 r c).1,
              (removeDomainUnit (removeDomainColumn
                (removeDomainRow g r c).1 r c).1 r c).2.1, false) := by
          rw [← hf3]
        exact ih _ _ _ h (passes_preserve_R g _ _ _ r c _ _ _ Q e1 e2 e3 hR)

/-! ### Soundness of the search -/

theorem WfChars_set_assign (g : Grid) (i j : Nat) (d : Char) (hwf : WfChars g)
    (hd : d ∈ cellsGet g i j) : WfChars (cellsSet g i j [d]) := by
  intro a ha b hb c0 hc0
  by_cases hij : i = a ∧ j = b
  · obtain ⟨rfl, rfl⟩ := hij
    rcases cellsGet_set_cases g i j [d] i j with hcc | hcc
    · rw [hcc] at hc0
      exact hwf i ha j hb c0 hc0
    · rw [hcc] at hc0
      have hc0d : c0 = d := by simpa using hc0
      subst hc0d
      exact hwf i ha j hb c0 hd
  · rw [cellsGet_set_ne hij] at hc0
    exact hwf a ha b hb c0 hc0

theorem R_set_assign (g : Grid) (i j : Nat) (d : Char) (hok : ok g) :
    R (cellsSet g i j [d]) [(i, j)] := by
  intro u hu p hp q hq hpq hplen hpeq
  by_cases hpij : p = (i, j)
  · exact Or.inl (by rw [hpij]; exact List.mem_singleton.mpr rfl)
  by_cases hqij : q = (i, j)
  · exact Or.inr (by rw [hqij]; exact List.mem_singleton.mpr rfl)
  have hpne : ¬(i = p.1 ∧ j = p.2) := by
    rintro ⟨h1, h2⟩
    exact hpij (by rw [Prod.ext_iff]; exact ⟨h1.symm, h2.symm⟩)
  have hqne : ¬(i = q.1 ∧ j = q.2) := by
    rintro ⟨h1, h2⟩
    exact hqij (by rw [Prod.ext_iff]; exact ⟨h1.symm, h2.symm⟩)
  rw [cellsGet_set_ne hpne] at hplen hpeq
  rw [cellsGet_set_ne hqne] at hpeq
  have := hok u hu p hp q hq hpq hplen hpeq
  simp at this

theorem digitLoop_cons (recur : Grid → SResult) (g : Grid) (i j : Nat) (d : Char)
    (ds : List Char) :
    digitLoop recur g i j (d :: ds) =
      if consistentCheck g d i j then
        (if (consistency (cellsSet g i j [d]) [(i, j)]).2 then digitLoop recur g i j ds
         else
           match recur (consistency (cellsSet g i j [d]) [(i, j)]).1 with
           | SResult.failed => digitLoop recur g i j ds
           | r => r)
      else digitLoop recur g i j ds := rfl

theorem searchF_succ (fuel : Nat) (sel : Grid → Option (Nat × Nat)) (g : Grid) :
    searchF (fuel + 1) sel g =
      if isSolved g then SResult.found g
      else
        match sel g with
        | none => SResult.crashed
        | some (i, j) => digitLoop (searchF fuel sel) g i j (cellsGet g i j) := rfl

theorem searchF_sound : ∀ (fuel : Nat) (sel : Grid → Option (Nat × Nat)) (g gf : Grid),
    WfChars g → ok g → searchF fuel sel g = SResult.found gf →
    WfChars gf ∧ ok gf ∧ isSolved gf = true := by
  intro fuel
  induction fuel with
  | zero =>
    intro sel g gf _ _ h
    exact absurd (h : SResult.fuelOut = SResult.found gf) (fun hcon => SResult.noConfusion hcon)
  | succ fuel ih =>
    intro sel g gf hwf hok h
    rw [searchF_succ] at h
    by_cases hs : isSolved g = true
    · rw [if_pos hs] at h
      obtain rfl : g = gf := by
        have h' : SResult.found g = SResult.found gf := h
        cases h'
        rfl
      exact ⟨hwf, hok, hs⟩
    · rw [if_neg hs] at h
      cases hsel : sel g with
      | none =>
        rw [hsel] at h
        exact absurd (h : SResult.crashed = SResult.found gf) (fun hcon => SResult.noConfusion hcon)
      | some ij =>
        obtain ⟨i, j⟩ := ij
        rw [hsel] at h
        have hl : digitLoop (searchF fuel sel) g i j (cellsGet g i j) =
            SResult.found gf := h
        clear h
        have loop : ∀ ds : List Char, (∀ d ∈ ds, d ∈ cellsGet g i j) →
            digitLoop (searchF fuel sel) g i j ds = SResult.found gf →
            WfChars gf ∧ ok gf ∧ isSolved gf = true := by
          intro ds
          induction ds with
          | nil =>
            intro _ hl0
            exact absurd (hl0 : SResult.failed = SResult.found gf) (fun hcon => SResult.noConfusion hcon)
          | cons d ds ihd =>
            intro hmem hl0
            rw [digitLoop_cons] at hl0
            by_cases hck : consistentCheck g d i j = true
            · rw [if_pos hck] at hl0
              by_cases hflag : (consistency (cellsSet g i j [d]) [(i, j)]).2 = true
              · rw [if_pos hflag] at hl0
                exact ihd (fun e he => hmem e (List.mem_cons_of_mem d he)) hl0
              · rw [if_neg hflag] at hl0
                have hcf : consistencyF
                    (totalSize (cellsSet g i j [d]) + [(i, j)].length + 1)
                    (cellsSet g i j [d]) [(i, j)] =
                    some ((consistency (cellsSet g i j [d]) [(i, j)]).1, false) := by
                  have h0 := consistencyF_consistency (cellsSet g i j [d]) [(i, j)]
                  rw [h0]
                  have h1 : (consistency (cellsSet g i j [d]) [(i, j)]).2 = false :=
                    Bool.not_eq_true _ ▸ hflag
                  rw [← h1]
                have hwf1 : WfChars (consistency (cellsSet g i j [d]) [(i, j)]).1 := by
                  intro a ha b hb c0 hc0
                  have hsubl := consistencyF_sublist _ _ _ _ _ hcf a b
                  exact WfChars_set_assign g i j d hwf
                    (hmem d (List.mem_cons_self d ds)) a ha b hb c0 (hsubl.subset hc0)
                have hok1 : ok (consistency (cellsSet g i j [d]) [(i, j)]).1 :=
                  consistencyF_R _ _ _ _ hcf (R_set_assign g i j d hok)
                cases hres : searchF fuel sel (consistency (cellsSet g i j [d]) [(i, j)]).1 with
                | found g2 =>
                  rw [hres] at hl0
                  obtain rfl : g2 = gf := by
                    have h2 : SResult.found g2 = SResult.found gf := hl0
                    cases h2
                    rfl
                  exact ih sel _ g2 hwf1 hok1 hres
                | failed =>
                  rw [hres] at hl0
                  exact ihd (fun e he => hmem e (List.mem_cons_of_mem d he)) hl0
                | crashed =>
                  rw [hres] at hl0
                  exact absurd (hl0 : SResult.crashed = SResult.found gf) (fun hcon => SResult.noConfusion hcon)
                | fuelOut =>
                  rw [hres] at hl0
                  exact absurd (hl0 : SResult.fuelOut = SResult.found gf) (fun hcon => SResult.noConfusion hcon)
            · rw [if_neg hck] at hl0
              exact ihd (fun e he => hmem e (List.mem_cons_of_mem d he)) hl0
        exact loop (cellsGet g i j) (fun d hd => hd) hl

/-! ### Solved plus no duplicate singletons gives a valid board -/

theorem solved_ok_valid (g : Grid) (hs : isSolved g = true) (hok : ok g)
    (hwf : WfChars g) : validUnits g := by
  have hcoords : ∀ u ∈ units, ∀ p ∈ u, p.1 < 9 ∧ p.2 < 9 := by decide
  have hnodup : ∀ u ∈ units, u.Nodup := by decide
  have hlen9 : ∀ u ∈ units, u.length = 9 := by decide
  intro u hu d hd
  have hsolved : ∀ p ∈ allPos, (cellsGet g p.1 p.2).length = 1 := by
    intro p hp
    have := List.all_eq_true.mp hs p hp
    simpa using this
  have hcell : ∀ p ∈ u, cellsGet g p.1 p.2 =
      [(cellsGet g p.1 p.2).headD ' '] := by
    intro p hp
    have h9 := hcoords u hu p hp
    have hl : (cellsGet g p.1 p.2).length = 1 := hsolved p (mem_allPos.mpr h9)
    obtain ⟨w, hw⟩ := List.length_eq_one.mp hl
    rw [hw]
    rfl
  have hchars : ∀ p ∈ u, (cellsGet g p.1 p.2).headD ' ' ∈ completeDomain := by
    intro p hp
    have h9 := hcoords u hu p hp
    refine hwf p.1 h9.1 p.2 h9.2 _ ?_
    conv in cellsGet g p.1 p.2 => rw [hcell p hp]
    exact List.mem_singleton.mpr rfl
  have hinj : ∀ p ∈ u, ∀ q ∈ u,
      (cellsGet g p.1 p.2).headD ' ' = (cellsGet g q.1 q.2).headD ' ' → p = q := by
    intro p hp q hq he
    by_contra hne
    have h9 := hcoords u hu p hp
    have hl := hsolved p (mem_allPos.mpr h9)
    have heq : cellsGet g p.1 p.2 = cellsGet g q.1 q.2 := by
      rw [hcell p hp, hcell q hq, he]
    have := hok u hu p hp q hq hne hl heq
    simp at this
  have hnd : (u.map fun p => (cellsGet g p.1 p.2).headD ' ').Nodup :=
    List.Nodup.map_on hinj (hnodup u hu)
  have hsub : (u.map fun p => (cellsGet g p.1 p.2).headD ' ') ⊆ completeDomain := by
    intro x hx
    obtain ⟨p, hp, rfl⟩ := List.mem_map.mp hx
    exact hchars p hp
  have hperm : (u.map fun p => (cellsGet g p.1 p.2).headD ' ').Perm completeDomain := by
    refine (hnd.subperm hsub).perm_of_length_le ?_
    rw [List.length_map, hlen9 u hu]
    rfl
  have hdmem : d ∈ u.map fun p => (cellsGet g p.1 p.2).headD ' ' :=
    hperm.mem_iff.mpr hd
  have hcount : (u.map fun p => (cellsGet g p.1 p.2).headD ' ').count d = 1 :=
    List.count_eq_one_of_mem hnd hdmem
  calc u.countP (fun p => cellsGet g p.1 p.2 == [d])
      = (u.map fun p => (cellsGet g p.1 p.2).headD ' ').countP (fun w => w == d) := by
        rw [List.countP_map]
        apply List.countP_congr
        intro p hp
        simp only [Function.comp]
        conv in cellsGet g p.1 p.2 => rw [hcell p hp]
        simp
    _ = 1 := hcount

/-! ### Claim C3 -/

/-- C3 counterexample: `Backtracking.search` returns the inconsistent
fully assigned board `badGrid` as solved (every cell a singleton), yet
digit 5 occurs twice in row 0, so not every row contains each digit
exactly once. -/
theorem c3_counterexample :
    searchF 730 selFA badGrid = SResult.found badGrid ∧
    rowUnit 0 ∈ units ∧
    (rowUnit 0).countP (fun p => cellsGet badGrid p.1 p.2 == ['5']) = 2 := by
  refine ⟨by decide, by decide, by decide⟩

/-- C3 amended: for every board whose 9 by 9 cells draw their characters
from "123456789" and in which no two cells of a common row, column or
box hold the same singleton domain, every board that
`Backtracking.search` returns as solved has every cell a singleton and
every row, column and box containing each digit 1 to 9 exactly once
(with any fuel, any selection strategy). -/
theorem c3_amended (fuel : Nat) (sel : Grid → Option (Nat × Nat)) (g gf : Grid)
    (hwf : WfChars g) (hok : ok g) (h : searchF fuel sel g = SResult.found gf) :
    isSolved gf = true ∧ validUnits gf := by
  obtain ⟨hwf1, hok1, hs⟩ := searchF_sound fuel sel g gf hwf hok h
  exact ⟨hs, solved_ok_valid gf hs hok1 hwf1⟩

/-- C3 witness: the amended soundness theorem applied to the valid
solved board, on which the search succeeds immediately. -/
theorem c3_witness :
    WfChars goodGrid ∧ ok goodGrid ∧
    (isSolved goodGrid = true ∧ validUnits goodGrid) :=
  ⟨by unfold WfChars; decide, by unfold ok R; decide,
    c3_amended 1 selFA goodGrid goodGrid (by unfold WfChars; decide)
      (by unfold ok R; decide) (by decide)⟩

/-! ### Claim C2 -/

/-- C2, behaviour at the failing input: on the fully assigned board with
two 5s pre-assigned in row 0, the initial sweep does signal the
contradiction (`AC3.consistency` returns True), but
`AC3.pre_process_consistency` discards that flag, and the subsequent
`Backtracking.search` on the board returns the inconsistent board as a
solution instead of reporting the failure value. -/
theorem c2_contradiction_ignored :
    (preProcess badGrid).2 = true ∧
    searchF 730 selFA (preProcess badGrid).1 = SResult.found badGrid ∧
    cellsGet badGrid 0 0 = ['5'] ∧ cellsGet badGrid 0 1 = ['5'] := by
  refine ⟨by decide, by decide, by decide, by decide⟩

/-! ### Claim C9 -/

theorem consistency_nonempty (g : Grid) (Q : List (Nat × Nat)) (hne : Nonempty9 g) :
    Nonempty9 (consistency g Q).1 := by
  have h : consistencyF (totalSize g + Q.length + 1) g Q =
      some ((consistency g Q).1, (consistency g Q).2) :=
    consistencyF_consistency g Q
  exact consistencyF_nonempty _ _ _ _ _ h hne

theorem reachable_nonempty : ∀ g, Reachable g → Nonempty9 g := by
  intro g hg
  induction hg with
  | ofRead s h =>
    intro i hi j hj
    rw [readFile_get s h hi hj]
    unfold conv
    split
    · simp [completeDomain]
    · simp
  | ofPre g hg ihg => exact consistency_nonempty g (fixedCells g) ihg
  | ofStep g i j d hg hd ihg =>
    apply consistency_nonempty
    intro a ha b hb
    rcases cellsGet_set_cases g i j [d] a b with hc | hc
    · rw [hc]
      exact ihg a ha b hb
    · rw [hc]
      simp

theorem faSelect_some_of_unsolved (g : Grid) (hne : Nonempty9 g)
    (hs : isSolved g = false) : ∃ p, faSelect g = some p := by
  have hexist : ∃ p ∈ allPos, (decide (1 < (cellsGet g p.1 p.2).length)) = true := by
    by_contra hno
    push_neg at hno
    have hall : allPos.all (fun p => (cellsGet g p.1 p.2).length == 1) = true := by
      rw [List.all_eq_true]
      intro p hp
      have h9 := mem_allPos.mp hp
      have hnil := hne p.1 h9.1 p.2 h9.2
      have hpos := List.length_pos.mpr hnil
      have hle : ¬1 < (cellsGet g p.1 p.2).length := by
        intro hgt
        exact absurd (decide_eq_true hgt) (by simpa using hno p hp)
      simp only [beq_iff_eq]
      omega
    unfold isSolved at hs
    rw [hall] at hs
    cases hs
  have hsome := (List.find?_isSome
    (p := fun p => decide (1 < (cellsGet g p.1 p.2).length))).mpr hexist
  obtain ⟨p, hp⟩ := Option.isSome_iff_exists.mp hsome
  exact ⟨p, hp⟩

theorem searchF_no_crash : ∀ (fuel : Nat) (g : Grid), Reachable g →
    searchF fuel selFA g ≠ SResult.crashed := by
  intro fuel
  induction fuel with
  | zero => intro g _ h; exact SResult.noConfusion h
  | succ fuel ih =>
    intro g hg h
    rw [searchF_succ] at h
    by_cases hs : isSolved g = true
    · rw [if_pos hs] at h
      exact SResult.noConfusion (h : SResult.found g = SResult.crashed)
    · rw [if_neg hs] at h
      cases hsel : selFA g with
      | none =>
        obtain ⟨p, hp⟩ := faSelect_some_of_unsolved g (reachable_nonempty g hg)
          (Bool.eq_false_iff.mpr hs)
        rw [show selFA = faSelect from rfl] at hsel
        rw [hsel] at hp
        cases hp
      | some ij =>
        obtain ⟨i, j⟩ := ij
        rw [hsel] at h
        have hl : digitLoop (searchF fuel selFA) g i j (cellsGet g i j) =
            SResult.crashed := h
        have loop : ∀ ds : List Char, (∀ d ∈ ds, d ∈ cellsGet g i j) →
            digitLoop (searchF fuel selFA) g i j ds ≠ SResult.crashed := by
          intro ds
          induction ds with
          | nil =>
            intro _ hcon
            exact SResult.noConfusion (hcon : SResult.failed = SResult.crashed)
          | cons d ds ihd =>
            intro hmem hcon
            rw [digitLoop_cons] at hcon
            by_cases hck : consistentCheck g d i j = true
            · rw [if_pos hck] at hcon
              by_cases hflag : (consistency (cellsSet g i j [d]) [(i, j)]).2 = true
              · rw [if_pos hflag] at hcon
                exact ihd (fun e he => hmem e (List.mem_cons_of_mem d he)) hcon
              · rw [if_neg hflag] at hcon
                cases hres : searchF fuel selFA
                    (consistency (cellsSet g i j [d]) [(i, j)]).1 with
                | found g2 =>
                  rw [hres] at hcon
                  exact SResult.noConfusion (hcon : SResult.found g2 = SResult.crashed)
                | failed =>
                  rw [hres] at hcon
                  exact ihd (fun e he => hmem e (List.mem_cons_of_mem d he)) hcon
                | crashed =>
                  exact ih _ (Reachable.ofStep g i j d hg (hmem d (List.mem_cons_self d ds)))
                    hres
                | fuelOut =>
                  rw [hres] at hcon
                  exact SResult.noConfusion (hcon : SResult.fuelOut = SResult.crashed)
            · rw [if_neg hck] at hcon
              exact ihd (fun e he => hmem e (List.mem_cons_of_mem d he)) hcon
        exact loop _ (fun d hd => hd) hl

/-- C9 counterexample: in the very scenario the claim cites
(pre_process_consistency detects a contradiction whose flag is
discarded), the resulting grid has no empty-domain cell: the board is
not solved and `FirstAvailable.select_variable` still returns a cell
(here (0,2)), not None. -/
theorem c9_counterexample :
    (preProcess (readFile dup2S)).2 = true ∧
    isSolved (preProcess (readFile dup2S)).1 = false ∧
    faSelect (preProcess (readFile dup2S)).1 = some (0, 2) := by
  refine ⟨by decide, by decide, by decide⟩

/-- C9 amended: the error branch is unreachable. The removal passes
return the Contradiction flag before ever storing an empty domain, so
every reachable grid has nonempty cells; hence on every unsolved
reachable grid `FirstAvailable.select_variable` returns a cell, and
`Backtracking.search` with the FirstAvailable selector can never reach
the TypeError branch of the tuple unpacking. -/
theorem c9_amended (g : Grid) (hg : Reachable g) :
    (isSolved g = false → ∃ p, faSelect g = some p) ∧
    ∀ fuel, searchF fuel selFA g ≠ SResult.crashed :=
  ⟨fun hs => faSelect_some_of_unsolved g (reachable_nonempty g hg) hs,
    fun fuel => searchF_no_crash fuel g hg⟩

/-- C9 witness: the amended theorem applied to the parsed partial
inconsistent input, a reachable grid. -/
theorem c9_witness :
    Reachable (readFile dup2S) ∧
    (isSolved (readFile dup2S) = false → ∃ p, faSelect (readFile dup2S) = some p) ∧
    ∀ fuel, searchF fuel selFA (readFile dup2S) ≠ SResult.crashed :=
  ⟨Reachable.ofRead dup2S (by decide),
    (c9_amended _ (Reachable.ofRead dup2S (by decide))).1,
    (c9_amended _ (Reachable.ofRead dup2S (by decide))).2⟩

end Sudoku
